import Mathlib

/-
Verification of the flashgamma gamma-evaluation core.

This file is a shallow embedding of the flashgamma repository
(src/flashgamma/algorithms.py, src/flashgamma/helpers.py,
src/flashgamma/distribution.py) together with proofs about the
embedded definitions.

Modelling conventions:
* Dose values, resolutions and criteria are rationals (the Python code
  uses IEEE doubles; all the operations the claims exercise are exact
  field operations, apart from `np.sqrt` and the special values
  inf / -inf / nan).
* The special float values produced by the algorithm (division by a
  zero denominator, the `np.inf` kernel sentinel) are modelled by the
  inductive type `F` (finite / +infinity / nan); addition, minimum and
  comparison on `F` mirror the IEEE behaviour of the nonnegative values
  that actually occur in the loop (all finite intermediates are
  nonnegative, so -inf never appears before the final sign flip).
* `np.sqrt` is monotone on nonnegative values, so a stored gamma value
  sqrt(m) (possibly negated for "cold" points) is represented by `GVal`
  carrying the squared magnitude m and the cold flag: the sign tests,
  the pass test |gamma| <= 1  (equivalent to m <= 1) and the sentinel
  test gamma == np.inf used by the code are all expressible without
  evaluating the square root.
-/

set_option maxRecDepth 40000

namespace Flashgamma

/-- Float-like intermediate value: a finite rational, +infinity
(`np.inf`, produced by the kernel sentinel and by x/0 for x > 0), or
nan (produced by 0/0).  -inf does not occur among the intermediates
(all finite intermediates are nonnegative). -/
inductive F where
  | fin (q : ℚ) : F
  | inf : F
  | nan : F
deriving DecidableEq, Repr

/-- IEEE addition restricted to the values that occur in the loop:
nan absorbs, inf absorbs over finite values. -/
def fadd : F → F → F
  | F.nan, _ => F.nan
  | _, F.nan => F.nan
  | F.inf, _ => F.inf
  | _, F.inf => F.inf
  | F.fin a, F.fin b => F.fin (a + b)

/-- Pairwise minimum as computed by np.min: nan propagates, inf is
neutral among non-nan values. -/
def fmin : F → F → F
  | F.nan, _ => F.nan
  | _, F.nan => F.nan
  | F.inf, b => b
  | a, F.inf => a
  | F.fin a, F.fin b => F.fin (min a b)

/-- np.min over a window (a nonempty list of values); folding with the
neutral element inf agrees with np.min on every nonempty list. -/
def windowMin (l : List F) : F := l.foldr fmin F.inf

/-- A stored gamma-map value.  `pinf` is np.inf (the initialisation /
skip sentinel, and the result of sqrt(inf) for a hot point);  `ninf`
is -inf (a cold point whose squared index was inf); `nan` is nan;
`val cold m` is the float (-1)^cold * sqrt(m). -/
inductive GVal where
  | pinf : GVal
  | ninf : GVal
  | nan : GVal
  | val (cold : Bool) (m : ℚ) : GVal
deriving DecidableEq, Repr

/-- The test `np.abs(gamma_map) <= 1.0` of algorithms.py line 151:
|(-1)^cold * sqrt m| <= 1  iff  m <= 1; false on inf, -inf and nan. -/
def gvalPass : GVal → Bool
  | GVal.val _ m => decide (m ≤ 1)
  | _ => false

/-- Whether the stored float is strictly negative:  -inf is, nan and
+inf are not, (-1)^cold * sqrt m is negative iff cold and m > 0. -/
def gvalIsNeg : GVal → Bool
  | GVal.ninf => true
  | GVal.val cold m => cold && decide (0 < m)
  | _ => false

/-- Whether the stored float is strictly positive. -/
def gvalIsPos : GVal → Bool
  | GVal.pinf => true
  | GVal.val cold m => !cold && decide (0 < m)
  | _ => false

/-- Whether the stored float is nonnegative (>= 0); false on nan. -/
def gvalNonneg : GVal → Bool
  | GVal.pinf => true
  | GVal.val cold m => !cold || decide (m = 0)
  | _ => false

/-- A 2D distribution (distribution.py):  an M x N data array of dose
values and a resolution in points/mm.  The positions play no role in
the gamma evaluation itself, which works by array index. -/
structure Distribution where
  rows : ℕ
  cols : ℕ
  data : ℕ → ℕ → ℚ
  res : ℚ

/-- np.max over the whole data array (algorithms.py line 103).  The
fold is seeded with the (0,0) entry, so for a nonempty array this is
the true maximum. -/
def distMax (E : Distribution) : ℚ :=
  ((List.range E.rows).flatMap
    (fun i => (List.range E.cols).map (fun j => E.data i j))).foldr max (E.data 0 0)

/-- Python's int() conversion: truncation toward zero. -/
def pyInt (q : ℚ) : ℤ := if q < 0 then ⌈q⌉ else ⌊q⌋

/-- eval_grids = math.ceil(delta_distance * e_dist.resolution)
(algorithms.py line 87), as a natural number (nonnegative arguments). -/
def evalGrids (E : Distribution) (dta : ℚ) : ℕ := (⌈dta * E.res⌉).toNat

/-- ref_grids = math.ceil(delta_distance * r_dist.resolution)
(algorithms.py line 102). -/
def refGrids (R : Distribution) (dta : ℚ) : ℕ := (⌈dta * R.res⌉).toNat

/-- The relative (row, col) grid offsets covered by a square window of
half-width g, in row-major order: the offsets (a-g, b-g) for
a, b in range(2g+1). -/
def offsets (g : ℕ) : List (ℤ × ℤ) :=
  (List.range (2 * g + 1)).flatMap
    (fun (a : ℕ) => (List.range (2 * g + 1)).map
      (fun (b : ℕ) => ((a : ℤ) - (g : ℤ), (b : ℤ) - (g : ℤ))))

/-- The distance kernel entry used inside `gamma` (algorithms.py lines
90-97): at grid offset (u, v) the squared physical Manhattan offset is
((|u| + |v|) / resolution)^2; entries whose physical offset exceeds
delta_distance are np.inf, the rest are offset^2 / delta_distance^2.
(The code squares first and compares sqrt(kernel) > dta, i.e. |off| > dta.) -/
def kernelF (dta r : ℚ) (u v : ℤ) : F :=
  let off : ℚ := ((u.natAbs + v.natAbs : ℕ) : ℚ) / r
  if dta < |off| then F.inf else F.fin (off ^ 2 / dta ^ 2)

/-- The distance kernel entry of helpers.create_distance_kernel (lines
102-111): identical to `kernelF` except that the sentinel written
before the final division by dta^2 is the finite 1000000000.0, so the
out-of-range entries are 10^9 / dta^2 instead of np.inf. -/
def kernelC (dta r : ℚ) (u v : ℤ) : F :=
  let off : ℚ := ((u.natAbs + v.natAbs : ℕ) : ℚ) / r
  if dta < |off| then F.fin (1000000000 / dta ^ 2) else F.fin (off ^ 2 / dta ^ 2)

/-- helpers.create_distance_kernel as the full (2k+1) x (2k+1) array,
k = ceil(dta * resolution); entry (a, b) sits at grid offset
(a - k, b - k) from the centre. -/
def create_distance_kernel (dta r : ℚ) : List (List ℚ) :=
  (List.range (2 * (⌈dta * r⌉).toNat + 1)).map (fun (a : ℕ) =>
    (List.range (2 * (⌈dta * r⌉).toNat + 1)).map (fun (b : ℕ) =>
      if dta < |((((a : ℤ) - (⌈dta * r⌉).toNat).natAbs +
            ((b : ℤ) - (⌈dta * r⌉).toNat).natAbs : ℕ) : ℚ) / r| then
        1000000000 / dta ^ 2
      else (((((a : ℤ) - (⌈dta * r⌉).toNat).natAbs +
            ((b : ℤ) - (⌈dta * r⌉).toNat).natAbs : ℕ) : ℚ) / r) ^ 2 / dta ^ 2))

/-- One dose-difference term e_slice**2 / denom**2 (algorithms.py
lines 127, 136) for a single window cell, with the IEEE behaviour of a
zero denominator: x/0 = inf for x > 0 and 0/0 = nan. -/
def doseTerm (denom e Dr : ℚ) : F :=
  let num := (e - Dr) ^ 2
  if denom = 0 then (if num = 0 then F.nan else F.inf) else F.fin (num / denom ^ 2)

/-- res_scale = int(e_dist.resolution / r_dist.resolution)
(algorithms.py line 116). -/
def resScale (R E : Distribution) : ℤ := pyInt (E.res / R.res)

/-- The evaluated-grid row (or column) directly corresponding to
reference index i:  c_r = i * res_scale (algorithms.py line 117). -/
def corrIdxZ (R E : Distribution) (i : ℕ) : ℤ := (i : ℤ) * resScale R E

/-- The corresponding index as an array index. -/
def corrIdx (R E : Distribution) (i : ℕ) : ℕ := (corrIdxZ R E i).toNat

/-- Whether reference cell (i, j) is visited by the double loop of
algorithms.py lines 104-105, i.e. lies at least ref_grids away from
every border. -/
def computedB (R : Distribution) (dta : ℚ) (i j : ℕ) : Bool :=
  decide (refGrids R dta ≤ i) && decide (i < R.rows - refGrids R dta) &&
  decide (refGrids R dta ≤ j) && decide (j < R.cols - refGrids R dta)

/-- The dose-difference denominator of algorithms.py lines 130-133:
D_r * delta_dose / 100 for a local evaluation, max_e_dose *
delta_dose / 100 for a global (Van Dyk) one. -/
def denomOf (R E : Distribution) (dd : ℚ) (loc : Bool) (i j : ℕ) : ℚ :=
  (if loc then R.data i j else distMax E) * dd / 100

/-- The list of combined per-window-cell values e_slice**2 / denom**2 +
kernel (algorithms.py lines 120-139) over which line 142 minimises,
for reference cell (i, j) and distance kernel K. -/
def termsOf (K : ℤ → ℤ → F) (R E : Distribution) (dd dta : ℚ)
    (loc : Bool) (i j : ℕ) : List F :=
  (offsets (evalGrids E dta)).map (fun p =>
    fadd (doseTerm (denomOf R E dd loc i j)
            (E.data (corrIdxZ R E i + p.1).toNat (corrIdxZ R E j + p.2).toNat)
            (R.data i j))
         (K p.1 p.2))

/-- Lines 145-149 of algorithms.py: take the square root of the
minimised squared index and negate it for a cold point.  sqrt(nan) is
nan (and stays nan after negation); sqrt(inf) is inf, negated to -inf
for a cold point; sqrt of the finite m is recorded as `val cold m`. -/
def sqrtStore (cold : Bool) : F → GVal
  | F.nan => GVal.nan
  | F.inf => if cold then GVal.ninf else GVal.pinf
  | F.fin m => GVal.val cold m

/-- The gamma-map value stored at reference cell (i, j) by the loop
body of algorithms.py lines 104-149, parametrised by the distance
kernel K (the `gamma` function uses `kernelF`; the spec-modelled
compiled sweep uses the `create_distance_kernel` entries `kernelC`).
Cells outside the loop keep their np.inf initialisation (lines 83-84).
The stored float is (-1)^cold * sqrt(min), where the cold flag of
lines 147-149 compares D_r with the evaluated dose at the directly
corresponding cell. -/
def cellValK (K : ℤ → ℤ → F) (R E : Distribution) (dd dta thr : ℚ)
    (loc : Bool) (i j : ℕ) : GVal :=
  if computedB R dta i j = true then
    if R.data i j < distMax E * thr / 100 then GVal.pinf
    else
      sqrtStore (decide (R.data i j < E.data (corrIdx R E i) (corrIdx R E j)))
        (windowMin (termsOf K R E dd dta loc i j))
  else GVal.pinf

/-- Number of grid cells (i, j), i < rows, j < cols, satisfying p. -/
def countGrid (rows cols : ℕ) (p : ℕ → ℕ → Bool) : ℕ :=
  ((List.range rows).map
    (fun i => ((List.range cols).filter (fun j => p i j)).length)).sum

/-- The pass rate of algorithms.py lines 151-153, parametrised by the
kernel:  num_passing = count(|gamma| <= 1), total_points = size -
count(gamma == np.inf), pass_rate = num_passing / total_points * 100. -/
def passRateK (K : ℤ → ℤ → F) (R E : Distribution) (dd dta thr : ℚ)
    (loc : Bool) : ℚ :=
  (countGrid R.rows R.cols
      (fun i j => gvalPass (cellValK K R E dd dta thr loc i j)) : ℚ) /
    ((R.rows * R.cols - countGrid R.rows R.cols
      (fun i j => decide (cellValK K R E dd dta thr loc i j = GVal.pinf)) : ℕ) : ℚ) *
    100

/-- The gamma map produced by algorithms.gamma. -/
def gammaMap (R E : Distribution) (dd dta thr : ℚ) (loc : Bool)
    (i j : ℕ) : GVal :=
  cellValK (kernelF dta E.res) R E dd dta thr loc i j

/-- The pass rate returned by algorithms.gamma. -/
def gammaPassRate (R E : Distribution) (dd dta thr : ℚ) (loc : Bool) : ℚ :=
  passRateK (kernelF dta E.res) R E dd dta thr loc

/-- Whether the window slice of algorithms.py lines 120-122 for cell
(i, j) stays inside the evaluated array, which is exactly the
condition under which the slice has the kernel's shape and the assert
of lines 123-124 passes (a clipped or wrapped slice of a nonempty
array is always strictly smaller than the kernel). -/
def sliceOkB (R E : Distribution) (dta : ℚ) (i j : ℕ) : Bool :=
  let g : ℤ := (evalGrids E dta : ℕ)
  decide (0 ≤ corrIdxZ R E i - g) && decide (corrIdxZ R E i + g < (E.rows : ℤ)) &&
  decide (0 ≤ corrIdxZ R E j - g) && decide (corrIdxZ R E j + g < (E.cols : ℤ))

/-- Whether every visited, non-thresholded cell passes the slice-shape
assert, i.e. the whole loop of algorithms.gamma runs to completion. -/
def assertOkB (R E : Distribution) (dta thr : ℚ) : Bool :=
  (List.range R.rows).all (fun i => (List.range R.cols).all (fun j =>
    !(computedB R dta i j) || decide (R.data i j < distMax E * thr / 100) ||
      sliceOkB R E dta i j))

/-- algorithms.gamma:  returns the gamma map and the pass rate, or
raises AssertionError (modelled by Except.error) when some visited
cell's evaluated-window slice does not have the kernel's shape. -/
def gamma (R E : Distribution) (dd dta thr : ℚ) (loc : Bool) :
    Except String ((ℕ → ℕ → GVal) × ℚ) :=
  if assertOkB R E dta thr = true then
    Except.ok (fun i j => gammaMap R E dd dta thr loc i j,
      gammaPassRate R E dd dta thr loc)
  else
    Except.error ("e_slice and kernel must be the same shape")

/-- Whether an Except value carries a result. -/
def exceptIsOk {ε α : Type} : Except ε α → Bool
  | Except.ok _ => true
  | Except.error _ => false

/-- Modelled from the spec: the compiled extension gamma_evaluation_c
(imported by algorithms.py but not present in the repository sources)
is specified in section 4.5 as running the same per-point algorithm as
section 4.4 against the supplied distance kernel and returning the
pass rate only.  It is modelled as the section 4.4 pass rate computed
with the kernel that gamma_pass_rate hands it. -/
def gamma_evaluation_c (R E : Distribution) (K : ℤ → ℤ → F)
    (dd dta thr : ℚ) (loc : Bool) : ℚ :=
  passRateK K R E dd dta thr loc

/-- algorithms.gamma_pass_rate (lines 198-235): for each distance
criterion it builds the kernel once with create_distance_kernel and
sweeps the dose criteria, writing pass_rates[yi, xi] for dose index yi
and distance index xi. -/
def gamma_pass_rate (R E : Distribution) (ddL dtaL : List ℚ)
    (thr : ℚ) (loc : Bool) : List (List ℚ) :=
  ddL.map (fun dd => dtaL.map (fun dta =>
    gamma_evaluation_c R E (kernelC dta E.res) dd dta thr loc))

/-! ### Generic list-counting helpers -/

/-- A distribution given by a rectangular list of rows (row-major). -/
def ofLists (l : List (List ℚ)) (r : ℚ) : Distribution :=
  ⟨l.length, (l.getD 0 []).length, fun i j => (l.getD i []).getD j 0, r⟩

/-- A constant n x n distribution. -/
def allConst (n : ℕ) (v r : ℚ) : Distribution := ⟨n, n, fun _ _ => v, r⟩

lemma filter_length_mono {α : Type} (l : List α) (p q : α → Bool)
    (h : ∀ a ∈ l, p a = true → q a = true) :
    (l.filter p).length ≤ (l.filter q).length := by
  induction l with
  | nil => simp
  | cons a l ih =>
    have ih2 := ih (fun x hx => h x (List.mem_cons_of_mem a hx))
    by_cases hp : p a = true
    · have hq := h a (List.mem_cons_self a l) hp
      simp [List.filter, hp, hq]
      omega
    · simp only [Bool.not_eq_true] at hp
      by_cases hq : q a = true
      · simp [List.filter, hp, hq]; omega
      · simp only [Bool.not_eq_true] at hq
        simp [List.filter, hp, hq]; omega

lemma filter_length_add_not {α : Type} (l : List α) (p : α → Bool) :
    (l.filter p).length + (l.filter (fun a => !(p a))).length = l.length := by
  induction l with
  | nil => simp
  | cons a l ih =>
    by_cases hp : p a = true
    · simp [List.filter, hp]; omega
    · simp only [Bool.not_eq_true] at hp
      simp [List.filter, hp]; omega

lemma sum_map_le {α : Type} (l : List α) (f g : α → ℕ)
    (h : ∀ a ∈ l, f a ≤ g a) : (l.map f).sum ≤ (l.map g).sum := by
  induction l with
  | nil => simp
  | cons a l ih =>
    have := h a (List.mem_cons_self a l)
    have := ih (fun x hx => h x (List.mem_cons_of_mem a hx))
    simp only [List.map_cons, List.sum_cons]
    omega

lemma sum_map_congr {α : Type} (l : List α) (f g : α → ℕ)
    (h : ∀ a ∈ l, f a = g a) : (l.map f).sum = (l.map g).sum := by
  have h1 := sum_map_le l f g (fun a ha => (h a ha).le)
  have h2 := sum_map_le l g f (fun a ha => (h a ha).ge)
  omega

lemma sum_map_add {α : Type} (l : List α) (f g : α → ℕ) :
    (l.map (fun a => f a + g a)).sum = (l.map f).sum + (l.map g).sum := by
  induction l with
  | nil => simp
  | cons a l ih => simp only [List.map_cons, List.sum_cons, ih]; omega

lemma sum_map_const {α : Type} (l : List α) (c : ℕ) :
    (l.map (fun _ => c)).sum = l.length * c := by
  induction l with
  | nil => simp
  | cons a l ih => simp [List.map_cons, List.sum_cons, ih]; ring

lemma countGrid_congr {rows cols : ℕ} {p q : ℕ → ℕ → Bool}
    (h : ∀ i j, i < rows → j < cols → p i j = q i j) :
    countGrid rows cols p = countGrid rows cols q := by
  unfold countGrid
  refine sum_map_congr _ _ _ (fun i hi => ?_)
  rw [List.mem_range] at hi
  congr 1
  refine List.filter_congr (fun j hj => ?_)
  rw [List.mem_range] at hj
  exact h i j hi hj

lemma countGrid_mono {rows cols : ℕ} {p q : ℕ → ℕ → Bool}
    (h : ∀ i j, i < rows → j < cols → p i j = true → q i j = true) :
    countGrid rows cols p ≤ countGrid rows cols q := by
  unfold countGrid
  refine sum_map_le _ _ _ (fun i hi => ?_)
  rw [List.mem_range] at hi
  refine filter_length_mono _ _ _ (fun j hj => ?_)
  rw [List.mem_range] at hj
  exact h i j hi hj

lemma countGrid_add_not (rows cols : ℕ) (p : ℕ → ℕ → Bool) :
    countGrid rows cols p + countGrid rows cols (fun i j => !(p i j)) = rows * cols := by
  unfold countGrid
  rw [← sum_map_add]
  have : ∀ i ∈ List.range rows,
      (((List.range cols).filter (fun j => p i j)).length +
        ((List.range cols).filter (fun j => !(p i j))).length) = (fun _ => cols) i := by
    intro i _
    simpa using filter_length_add_not (List.range cols) (fun j => p i j)
  rw [sum_map_congr _ _ _ this, sum_map_const]
  simp

lemma countGrid_le (rows cols : ℕ) (p : ℕ → ℕ → Bool) :
    countGrid rows cols p ≤ rows * cols := by
  have := countGrid_add_not rows cols p
  omega

lemma countGrid_pos {rows cols : ℕ} {p : ℕ → ℕ → Bool} (i j : ℕ)
    (hi : i < rows) (hj : j < cols) (hp : p i j = true) :
    0 < countGrid rows cols p := by
  unfold countGrid
  have hjmem : j ∈ (List.range cols).filter (fun j => p i j) :=
    List.mem_filter.mpr ⟨List.mem_range.mpr hj, hp⟩
  have hlen : 0 < ((List.range cols).filter (fun j => p i j)).length :=
    List.length_pos.mpr (List.ne_nil_of_mem hjmem)
  have hmem : ((List.range cols).filter (fun j => p i j)).length ∈
      (List.range rows).map (fun i => ((List.range cols).filter (fun j => p i j)).length) :=
    List.mem_map_of_mem _ (List.mem_range.mpr hi)
  have := List.single_le_sum (fun x _ => Nat.zero_le x) _ hmem
  omega

/-! ### Facts about the float model F -/

lemma fadd_ne_nan {a b : F} (ha : a ≠ F.nan) (hb : b ≠ F.nan) : fadd a b ≠ F.nan := by
  cases a <;> cases b <;> simp_all [fadd]

lemma fadd_nan_left (b : F) : fadd F.nan b = F.nan := by cases b <;> rfl

lemma fadd_inf_left {b : F} (hb : b ≠ F.nan) : fadd F.inf b = F.inf := by
  cases b <;> simp_all [fadd]

lemma fmin_nan_right (a : F) : fmin a F.nan = F.nan := by cases a <;> rfl

lemma fmin_inf_right (a : F) (ha : a ≠ F.nan) : fmin a F.inf = a := by
  cases a <;> simp_all [fmin]

lemma kernelF_ne_nan (dta r : ℚ) (u v : ℤ) : kernelF dta r u v ≠ F.nan := by
  simp only [kernelF]; split <;> simp

lemma kernelC_ne_nan (dta r : ℚ) (u v : ℤ) : kernelC dta r u v ≠ F.nan := by
  simp only [kernelC]; split <;> simp

lemma sqrtStore_nan (c : Bool) : sqrtStore c F.nan = GVal.nan := rfl

lemma sqrtStore_inf (c : Bool) :
    sqrtStore c F.inf = if c then GVal.ninf else GVal.pinf := rfl

lemma sqrtStore_fin (c : Bool) (m : ℚ) : sqrtStore c (F.fin m) = GVal.val c m := rfl

lemma windowMin_ne_nan {l : List F} (h : ∀ x ∈ l, x ≠ F.nan) :
    windowMin l ≠ F.nan := by
  induction l with
  | nil => simp [windowMin]
  | cons a l ih =>
    have ha := h a (List.mem_cons_self a l)
    have hl := ih (fun x hx => h x (List.mem_cons_of_mem a hx))
    show fmin a (windowMin l) ≠ F.nan
    cases a <;> cases hwl : windowMin l <;> simp_all [fmin]

lemma windowMin_le_mem {l : List F} {q : ℚ} (h : ∀ x ∈ l, x ≠ F.nan)
    (hq : F.fin q ∈ l) : ∃ m, windowMin l = F.fin m ∧ m ≤ q := by
  induction l with
  | nil => simp at hq
  | cons a l ih =>
    have hl : ∀ x ∈ l, x ≠ F.nan := fun x hx => h x (List.mem_cons_of_mem a hx)
    have hlnan := windowMin_ne_nan hl
    show ∃ m, fmin a (windowMin l) = F.fin m ∧ m ≤ q
    rcases List.mem_cons.mp hq with rfl | hq2
    · cases hwl : windowMin l with
      | nan => exact absurd hwl hlnan
      | inf => exact ⟨q, by simp [fmin], le_refl q⟩
      | fin m => exact ⟨min q m, by simp [fmin], min_le_left q m⟩
    · obtain ⟨m, hm, hmq⟩ := ih hl hq2
      rw [hm]
      have ha := h a (List.mem_cons_self a l)
      cases a with
      | nan => exact absurd rfl ha
      | inf => exact ⟨m, rfl, hmq⟩
      | fin b => exact ⟨min b m, rfl, le_trans (min_le_right b m) hmq⟩

lemma windowMin_lb {l : List F} {m c : ℚ} (hm : windowMin l = F.fin m)
    (h : ∀ q : ℚ, F.fin q ∈ l → c ≤ q) : c ≤ m := by
  induction l generalizing m with
  | nil => simp [windowMin] at hm
  | cons a l ih =>
    have hstep : fmin a (windowMin l) = F.fin m := hm
    cases a with
    | nan => simp [fmin] at hstep
    | inf =>
      cases hwl : windowMin l with
      | nan => rw [hwl] at hstep; simp [fmin] at hstep
      | inf => rw [hwl] at hstep; simp [fmin] at hstep
      | fin m2 =>
        rw [hwl] at hstep
        simp only [fmin] at hstep
        obtain rfl : m2 = m := by injection hstep
        exact ih hwl (fun q hq => h q (List.mem_cons_of_mem _ hq))
    | fin b =>
      have hb : c ≤ b := h b (List.mem_cons_self _ l)
      cases hwl : windowMin l with
      | nan => rw [hwl] at hstep; simp [fmin] at hstep
      | inf =>
        rw [hwl] at hstep
        simp only [fmin] at hstep
        obtain rfl : b = m := by injection hstep
        exact hb
      | fin m2 =>
        rw [hwl] at hstep
        simp only [fmin] at hstep
        obtain rfl : min b m2 = m := by injection hstep
        have := ih hwl (fun q hq => h q (List.mem_cons_of_mem _ hq))
        exact le_min hb this

lemma windowMin_mem {l : List F} {m : ℚ} (hm : windowMin l = F.fin m) :
    F.fin m ∈ l := by
  induction l generalizing m with
  | nil => simp [windowMin] at hm
  | cons a l ih =>
    have hstep : fmin a (windowMin l) = F.fin m := hm
    cases a with
    | nan => simp [fmin] at hstep
    | inf =>
      cases hwl : windowMin l with
      | nan => rw [hwl] at hstep; simp [fmin] at hstep
      | inf => rw [hwl] at hstep; simp [fmin] at hstep
      | fin m2 =>
        rw [hwl] at hstep
        simp only [fmin] at hstep
        obtain rfl : m2 = m := by injection hstep
        exact List.mem_cons_of_mem _ (ih hwl)
    | fin b =>
      cases hwl : windowMin l with
      | nan => rw [hwl] at hstep; simp [fmin] at hstep
      | inf =>
        rw [hwl] at hstep
        simp only [fmin] at hstep
        obtain rfl : b = m := by injection hstep
        exact List.mem_cons_self _ l
      | fin m2 =>
        rw [hwl] at hstep
        simp only [fmin] at hstep
        obtain rfl : min b m2 = m := by injection hstep
        rcases min_cases b m2 with ⟨hmin, _⟩ | ⟨hmin, _⟩
        · rw [hmin]; exact List.mem_cons_self _ l
        · rw [hmin]; exact List.mem_cons_of_mem _ (ih hwl)

lemma windowMin_all_inf {l : List F} (h : ∀ x ∈ l, x = F.inf) :
    windowMin l = F.inf := by
  induction l with
  | nil => rfl
  | cons a l ih =>
    have ha := h a (List.mem_cons_self a l)
    have hl := ih (fun x hx => h x (List.mem_cons_of_mem a hx))
    show fmin a (windowMin l) = F.inf
    rw [ha, hl]; rfl

lemma windowMin_rel {α : Type} (rel : F → F → Prop) (hinf : rel F.inf F.inf)
    (hcompat : ∀ a1 b1 a2 b2, rel a1 b1 → rel a2 b2 → rel (fmin a1 a2) (fmin b1 b2))
    (xs : List α) (f g : α → F) (h : ∀ x ∈ xs, rel (f x) (g x)) :
    rel (windowMin (xs.map f)) (windowMin (xs.map g)) := by
  induction xs with
  | nil => exact hinf
  | cons a xs ih =>
    have ha := h a (List.mem_cons_self a xs)
    have hxs := ih (fun x hx => h x (List.mem_cons_of_mem a hx))
    exact hcompat _ _ _ _ ha hxs

/-! ### Comparison relations on F preserved by fmin -/

/-- Pointwise domination: used to compare the window minima for two
dose criteria (same nan/inf pattern, finite values dominated). -/
def relMono (a b : F) : Prop :=
  (a = F.inf ∧ b = F.inf) ∨ (∃ p q, a = F.fin p ∧ b = F.fin q ∧ q ≤ p)

lemma relMono_compat (a1 b1 a2 b2 : F) (h1 : relMono a1 b1) (h2 : relMono a2 b2) :
    relMono (fmin a1 a2) (fmin b1 b2) := by
  rcases h1 with ⟨rfl, rfl⟩ | ⟨p1, q1, rfl, rfl, hle1⟩ <;>
    rcases h2 with ⟨rfl, rfl⟩ | ⟨p2, q2, rfl, rfl, hle2⟩
  · exact Or.inl ⟨rfl, rfl⟩
  · exact Or.inr ⟨p2, q2, rfl, rfl, hle2⟩
  · exact Or.inr ⟨p1, q1, rfl, rfl, hle1⟩
  · exact Or.inr ⟨min p1 p2, min q1 q2, rfl, rfl, min_le_min hle1 hle2⟩

/-- Relation between the inf-sentinel kernel minimum (left) and the
finite-sentinel kernel minimum (right): the right value is dominated
by the left, and wherever they differ the right value exceeds 1. -/
def relGap (a b : F) : Prop :=
  (a = F.inf ∧ (b = F.inf ∨ ∃ q, b = F.fin q ∧ 1 < q)) ∨
  (∃ p q, a = F.fin p ∧ b = F.fin q ∧ q ≤ p ∧ (q < p → 1 < q))

lemma relGap_compat (a1 b1 a2 b2 : F) (h1 : relGap a1 b1) (h2 : relGap a2 b2) :
    relGap (fmin a1 a2) (fmin b1 b2) := by
  rcases h1 with ⟨rfl, rfl | ⟨s1, rfl, hs1⟩⟩ | ⟨p1, q1, rfl, rfl, hle1, hgap1⟩ <;>
    rcases h2 with ⟨rfl, rfl | ⟨s2, rfl, hs2⟩⟩ | ⟨p2, q2, rfl, rfl, hle2, hgap2⟩
  · exact Or.inl ⟨rfl, Or.inl rfl⟩
  · exact Or.inl ⟨rfl, Or.inr ⟨s2, rfl, hs2⟩⟩
  · exact Or.inr ⟨p2, q2, rfl, rfl, hle2, hgap2⟩
  · exact Or.inl ⟨rfl, Or.inr ⟨s1, rfl, hs1⟩⟩
  · exact Or.inl ⟨rfl, Or.inr ⟨min s1 s2, rfl, lt_min hs1 hs2⟩⟩
  · refine Or.inr ⟨p2, min s1 q2, rfl, rfl, le_trans (min_le_right s1 q2) hle2, ?_⟩
    intro hlt
    rcases min_cases s1 q2 with ⟨hm, _⟩ | ⟨hm, hcase⟩
    · rw [hm]; exact hs1
    · rw [hm]; rw [hm] at hlt; exact hgap2 hlt
  · exact Or.inr ⟨p1, q1, rfl, rfl, hle1, hgap1⟩
  · refine Or.inr ⟨p1, min q1 s2, rfl, rfl, le_trans (min_le_left q1 s2) hle1, ?_⟩
    intro hlt
    rcases min_cases q1 s2 with ⟨hm, _⟩ | ⟨hm, _⟩
    · rw [hm]; rw [hm] at hlt; exact hgap1 hlt
    · rw [hm]; exact hs2
  · refine Or.inr ⟨min p1 p2, min q1 q2, rfl, rfl, min_le_min hle1 hle2, ?_⟩
    intro hlt
    rcases min_cases q1 q2 with ⟨hm, hc⟩ | ⟨hm, hc⟩
    · rw [hm]; rw [hm] at hlt
      exact hgap1 (lt_of_lt_of_le hlt (min_le_left p1 p2))
    · rw [hm]; rw [hm] at hlt
      exact hgap2 (lt_of_lt_of_le hlt (min_le_right p1 p2))

/-! ### Facts about window terms -/

lemma doseTerm_of_ne {denom : ℚ} (h : denom ≠ 0) (e Dr : ℚ) :
    doseTerm denom e Dr = F.fin ((e - Dr) ^ 2 / denom ^ 2) := by
  simp [doseTerm, h]

lemma doseTerm_of_zero {denom : ℚ} (h : denom = 0) (e Dr : ℚ) :
    doseTerm denom e Dr = F.nan ∨ doseTerm denom e Dr = F.inf := by
  by_cases hnum : (e - Dr) ^ 2 = 0
  · exact Or.inl (by simp [doseTerm, h, hnum])
  · exact Or.inr (by simp [doseTerm, h, hnum])

lemma doseTerm_ne_nan {denom : ℚ} (h : denom ≠ 0) (e Dr : ℚ) :
    doseTerm denom e Dr ≠ F.nan := by
  rw [doseTerm_of_ne h]; simp

/-- Classification of one combined window term against the inf-sentinel
kernel, under a nonzero denominator. -/
lemma termF_cases {denom : ℚ} (hden : denom ≠ 0) (e Dr dta r : ℚ) (u v : ℤ) :
    (kernelF dta r u v = F.inf ∧
      fadd (doseTerm denom e Dr) (kernelF dta r u v) = F.inf) ∨
    (∃ k, kernelF dta r u v = F.fin k ∧ 0 ≤ k ∧
      fadd (doseTerm denom e Dr) (kernelF dta r u v) =
        F.fin ((e - Dr) ^ 2 / denom ^ 2 + k)) := by
  rw [doseTerm_of_ne hden]
  simp only [kernelF]
  split
  · exact Or.inl ⟨rfl, rfl⟩
  · exact Or.inr ⟨_, rfl, div_nonneg (sq_nonneg _) (sq_nonneg _), rfl⟩

/-- A kernel entry is zero only at the centre of the window (for a
nonzero resolution). -/
lemma kernelF_fin_zero {dta r : ℚ} (hr : r ≠ 0) {u v : ℤ}
    (h : kernelF dta r u v = F.fin 0) : u = 0 ∧ v = 0 := by
  simp only [kernelF] at h
  by_cases hc : dta < |((u.natAbs + v.natAbs : ℕ) : ℚ) / r|
  · rw [if_pos hc] at h; exact absurd h (by simp)
  · rw [if_neg hc] at h
    have h0 : (((u.natAbs + v.natAbs : ℕ) : ℚ) / r) ^ 2 / dta ^ 2 = 0 := by
      injection h
    have hoff : ((u.natAbs + v.natAbs : ℕ) : ℚ) / r = 0 := by
      rcases eq_or_ne dta 0 with hdta | hdta
      · subst hdta
        push_neg at hc
        have habs : |((u.natAbs + v.natAbs : ℕ) : ℚ) / r| = 0 :=
          le_antisymm hc (abs_nonneg _)
        exact abs_eq_zero.mp habs
      · rcases div_eq_zero_iff.mp h0 with hsq | hsq
        · exact sq_eq_zero_iff.mp hsq
        · exact absurd hsq (pow_ne_zero 2 hdta)
    rcases div_eq_zero_iff.mp hoff with hnum | hnum
    · have : u.natAbs + v.natAbs = 0 := Nat.cast_eq_zero.mp hnum
      constructor
      · exact Int.natAbs_eq_zero.mp (by omega)
      · exact Int.natAbs_eq_zero.mp (by omega)
    · exact absurd hnum hr

/-- The centre offset belongs to every window. -/
lemma center_mem_offsets (g : ℕ) : ((0 : ℤ), (0 : ℤ)) ∈ offsets g := by
  have hgmem : g ∈ List.range (2 * g + 1) := List.mem_range.mpr (by omega)
  have hmap : ((0 : ℤ), (0 : ℤ)) ∈ (List.range (2 * g + 1)).map
      (fun (b : ℕ) => ((g : ℤ) - (g : ℤ), (b : ℤ) - (g : ℤ))) := by
    refine List.mem_map.mpr ⟨g, hgmem, ?_⟩
    simp
  exact List.mem_flatMap.mpr ⟨g, hgmem, hmap⟩

lemma termsOf_no_nan (K : ℤ → ℤ → F) (R E : Distribution) (dd dta : ℚ)
    (loc : Bool) (i j : ℕ)
    (hK : ∀ u v, K u v ≠ F.nan)
    (hden : denomOf R E dd loc i j ≠ 0) :
    ∀ x ∈ termsOf K R E dd dta loc i j, x ≠ F.nan := by
  intro x hx
  obtain ⟨p, _, rfl⟩ := List.mem_map.mp hx
  exact fadd_ne_nan (doseTerm_ne_nan hden _ _) (hK p.1 p.2)

/-- Master classification of a visited, unskipped gamma-map value with
a nonzero denominator:  it is -inf (possible only for a cold point),
+inf (only for a non-cold point), or a finite value sqrt(m) with
m >= 0 that vanishes only when the directly corresponding evaluated
dose equals D_r; the sign flag is exactly the cold test of
algorithms.py line 148. -/
lemma gammaMap_sign_cases (R E : Distribution) (dd dta thr : ℚ) (loc : Bool)
    (i j : ℕ)
    (hres : E.res ≠ 0)
    (hcomp : computedB R dta i j = true)
    (hthr : ¬(R.data i j < distMax E * thr / 100))
    (hden : denomOf R E dd loc i j ≠ 0) :
    (gammaMap R E dd dta thr loc i j = GVal.ninf ∧
      R.data i j < E.data (corrIdx R E i) (corrIdx R E j)) ∨
    (gammaMap R E dd dta thr loc i j = GVal.pinf ∧
      ¬ R.data i j < E.data (corrIdx R E i) (corrIdx R E j)) ∨
    (∃ m, gammaMap R E dd dta thr loc i j =
        GVal.val (decide (R.data i j < E.data (corrIdx R E i) (corrIdx R E j))) m ∧
      0 ≤ m ∧ (m = 0 → E.data (corrIdx R E i) (corrIdx R E j) = R.data i j)) := by
  unfold gammaMap cellValK
  rw [if_pos hcomp, if_neg hthr]
  have hnonan := termsOf_no_nan (kernelF dta E.res) R E dd dta loc i j
    (fun u v => kernelF_ne_nan dta E.res u v) hden
  cases hwm : windowMin (termsOf (kernelF dta E.res) R E dd dta loc i j) with
  | nan => exact absurd hwm (windowMin_ne_nan hnonan)
  | inf =>
    rw [sqrtStore_inf]
    by_cases hlt : R.data i j < E.data (corrIdx R E i) (corrIdx R E j)
    · exact Or.inl ⟨by simp [hlt], hlt⟩
    · exact Or.inr (Or.inl ⟨by simp [hlt], hlt⟩)
  | fin m =>
    rw [sqrtStore_fin]
    refine Or.inr (Or.inr ⟨m, rfl, ?_, ?_⟩)
    · refine windowMin_lb hwm (fun q hq => ?_)
      obtain ⟨p, _, hp⟩ := List.mem_map.mp hq
      rcases termF_cases hden
          (E.data (corrIdxZ R E i + p.1).toNat (corrIdxZ R E j + p.2).toNat)
          (R.data i j) dta E.res p.1 p.2 with ⟨_, hinf⟩ | ⟨k, _, hk, hfin⟩
      · rw [hinf] at hp; exact absurd hp (by simp)
      · rw [hfin] at hp
        have hq2 : (E.data (corrIdxZ R E i + p.1).toNat (corrIdxZ R E j + p.2).toNat -
            R.data i j) ^ 2 / (denomOf R E dd loc i j) ^ 2 + k = q := by
          injection hp
        have hd : 0 ≤ (E.data (corrIdxZ R E i + p.1).toNat (corrIdxZ R E j + p.2).toNat -
            R.data i j) ^ 2 / (denomOf R E dd loc i j) ^ 2 :=
          div_nonneg (sq_nonneg _) (sq_nonneg _)
        linarith
    · intro hm0
      subst hm0
      have hmem := windowMin_mem hwm
      obtain ⟨p, _, hp⟩ := List.mem_map.mp hmem
      rcases termF_cases hden
          (E.data (corrIdxZ R E i + p.1).toNat (corrIdxZ R E j + p.2).toNat)
          (R.data i j) dta E.res p.1 p.2 with ⟨_, hinf⟩ | ⟨k, hker, hk, hfin⟩
      · rw [hinf] at hp; exact absurd hp (by simp)
      · rw [hfin] at hp
        have hq2 : (E.data (corrIdxZ R E i + p.1).toNat (corrIdxZ R E j + p.2).toNat -
            R.data i j) ^ 2 / (denomOf R E dd loc i j) ^ 2 + k = 0 := by
          injection hp
        have hd : 0 ≤ (E.data (corrIdxZ R E i + p.1).toNat (corrIdxZ R E j + p.2).toNat -
            R.data i j) ^ 2 / (denomOf R E dd loc i j) ^ 2 :=
          div_nonneg (sq_nonneg _) (sq_nonneg _)
        have hk0 : k = 0 := by linarith
        have hd0 : (E.data (corrIdxZ R E i + p.1).toNat (corrIdxZ R E j + p.2).toNat -
            R.data i j) ^ 2 / (denomOf R E dd loc i j) ^ 2 = 0 := by linarith
        subst hk0
        obtain ⟨hu, hv⟩ := kernelF_fin_zero hres hker
        rcases div_eq_zero_iff.mp hd0 with hnum | hnum
        · have hnum2 := sq_eq_zero_iff.mp hnum
          rw [hu, hv] at hnum2
          simp only [add_zero] at hnum2
          have : E.data (corrIdx R E i) (corrIdx R E j) - R.data i j = 0 := hnum2
          linarith
        · exact absurd hnum (pow_ne_zero 2 hden)

/-! ### Claims C1, C2: sign of the stored gamma value -/

/-- Claim C1 (counterexample): with reference uniformly 1 and evaluated
uniformly 2 (evaluated higher at the corresponding cell), the computed
cell (1,1) stores a NEGATIVE value (the code's "cold" branch,
algorithms.py lines 147-149), not the positive "hot" value the claim
asserts. -/
theorem C1_cex :
    (allConst 3 1 1).data 1 1 <
      (allConst 3 2 1).data (corrIdx (allConst 3 1 1) (allConst 3 2 1) 1)
        (corrIdx (allConst 3 1 1) (allConst 3 2 1) 1) ∧
    gvalIsNeg (gammaMap (allConst 3 1 1) (allConst 3 2 1) 50 1 0 false 1 1) = true ∧
    gvalIsPos (gammaMap (allConst 3 1 1) (allConst 3 2 1) 50 1 0 false 1 1) = false := by
  with_unfolding_all decide

/-- Claim C1 (amended): at every computed cell with nonzero evaluated
resolution and nonzero dose-difference denominator, an evaluated dose
strictly HIGHER than the reference dose at the directly corresponding
cell yields a strictly negative ("cold") stored gamma value, and a
strictly lower one yields a strictly positive ("hot") value. -/
theorem C1_thm (R E : Distribution) (dd dta thr : ℚ) (loc : Bool) (i j : ℕ)
    (hres : E.res ≠ 0)
    (hcomp : computedB R dta i j = true)
    (hthr : ¬(R.data i j < distMax E * thr / 100))
    (hden : denomOf R E dd loc i j ≠ 0) :
    (R.data i j < E.data (corrIdx R E i) (corrIdx R E j) →
      gvalIsNeg (gammaMap R E dd dta thr loc i j) = true) ∧
    (E.data (corrIdx R E i) (corrIdx R E j) < R.data i j →
      gvalIsPos (gammaMap R E dd dta thr loc i j) = true) := by
  rcases gammaMap_sign_cases R E dd dta thr loc i j hres hcomp hthr hden with
    ⟨hmap, hlt⟩ | ⟨hmap, hlt⟩ | ⟨m, hmap, hm0, hmz⟩
  · exact ⟨fun _ => by rw [hmap]; rfl, fun h => absurd hlt (not_lt_of_gt h)⟩
  · refine ⟨fun h => absurd h hlt, fun _ => by rw [hmap]; rfl⟩
  · constructor
    · intro h
      have hmpos : 0 < m := by
        rcases lt_or_eq_of_le hm0 with hp | hp
        · exact hp
        · exact absurd (hmz hp.symm) (ne_of_gt h)
      rw [hmap]
      simp [gvalIsNeg, h, hmpos]
    · intro h
      have hnlt : ¬ R.data i j < E.data (corrIdx R E i) (corrIdx R E j) :=
        not_lt_of_gt h
      have hmpos : 0 < m := by
        rcases lt_or_eq_of_le hm0 with hp | hp
        · exact hp
        · exact absurd (hmz hp.symm) (ne_of_lt h)
      rw [hmap]
      simp [gvalIsPos, hnlt, hmpos]

/-- Claim C1 witness: the amended theorem applied to a concrete pair
(reference uniformly 1, evaluated uniformly 2). -/
theorem C1_witness :
    gvalIsNeg (gammaMap (allConst 3 1 1) (allConst 3 2 1) 50 1 0 false 1 1) = true :=
  (C1_thm (allConst 3 1 1) (allConst 3 2 1) 50 1 0 false 1 1
    (by with_unfolding_all decide) (by with_unfolding_all decide) (by with_unfolding_all decide) (by with_unfolding_all decide)).1 (by with_unfolding_all decide)

/-- Claim C2 (counterexample): at a computed cell with a zero local
denominator (D_r = 0, local normalisation) and a zero dose difference
somewhere in the window, the stored value is nan (0/0 propagated
through np.min and np.sqrt), which is NOT negative although the
reference value is strictly below the evaluated value at the directly
corresponding cell — the claimed "negative iff" fails. -/
theorem C2_cex :
    (ofLists [[1,1,1],[1,0,1],[1,1,1]] 1).data 1 1 <
      (ofLists [[0,1,1],[1,1,1],[1,1,1]] 1).data 1 1 ∧
    gammaMap (ofLists [[1,1,1],[1,0,1],[1,1,1]] 1)
      (ofLists [[0,1,1],[1,1,1],[1,1,1]] 1) 3 1 0 true 1 1 = GVal.nan ∧
    gvalIsNeg (gammaMap (ofLists [[1,1,1],[1,0,1],[1,1,1]] 1)
      (ofLists [[0,1,1],[1,1,1],[1,1,1]] 1) 3 1 0 true 1 1) = false := by
  with_unfolding_all decide

/-- Claim C2 (amended): for every computed (non-skipped, non-border)
reference cell whose dose-difference denominator is nonzero (and with
nonzero evaluated resolution), the stored gamma value is negative iff
R.data[i,j] < E.data[c_r,c_c] at the directly corresponding cell
(c_r, c_c) = (i * resScale, j * resScale); otherwise, including
equality, the stored value is nonnegative. -/
theorem C2_thm (R E : Distribution) (dd dta thr : ℚ) (loc : Bool) (i j : ℕ)
    (hres : E.res ≠ 0)
    (hcomp : computedB R dta i j = true)
    (hthr : ¬(R.data i j < distMax E * thr / 100))
    (hden : denomOf R E dd loc i j ≠ 0) :
    (gvalIsNeg (gammaMap R E dd dta thr loc i j) = true ↔
      R.data i j < E.data (corrIdx R E i) (corrIdx R E j)) ∧
    (¬ R.data i j < E.data (corrIdx R E i) (corrIdx R E j) →
      gvalNonneg (gammaMap R E dd dta thr loc i j) = true) := by
  rcases gammaMap_sign_cases R E dd dta thr loc i j hres hcomp hthr hden with
    ⟨hmap, hlt⟩ | ⟨hmap, hlt⟩ | ⟨m, hmap, hm0, hmz⟩
  · exact ⟨by rw [hmap]; simp [gvalIsNeg, hlt], fun h => absurd hlt h⟩
  · exact ⟨by rw [hmap]; simp [gvalIsNeg, hlt], fun _ => by rw [hmap]; rfl⟩
  · by_cases hlt : R.data i j < E.data (corrIdx R E i) (corrIdx R E j)
    · have hmpos : 0 < m := by
        rcases lt_or_eq_of_le hm0 with hp | hp
        · exact hp
        · exact absurd (hmz hp.symm) (ne_of_gt hlt)
      exact ⟨by rw [hmap]; simp [gvalIsNeg, hlt, hmpos], fun h => absurd hlt h⟩
    · constructor
      · rw [hmap]; simp [gvalIsNeg, hlt]
      · intro _; rw [hmap]; simp [gvalNonneg, hlt]

/-- Claim C2 witness: the amended theorem applied to a concrete pair
(reference uniformly 2, evaluated uniformly 1: a hot point, stored
value nonnegative). -/
theorem C2_witness :
    gvalNonneg (gammaMap (allConst 3 2 1) (allConst 3 1 1) 50 1 0 false 1 1) = true :=
  (C2_thm (allConst 3 2 1) (allConst 3 1 1) 50 1 0 false 1 1
    (by with_unfolding_all decide) (by with_unfolding_all decide) (by with_unfolding_all decide) (by with_unfolding_all decide)).2 (by with_unfolding_all decide)

/-! ### Claim C7: threshold exclusion and pass-rate formula -/

/-- Claim C7: every reference cell whose dose is strictly below
maxEvaluatedDose * thresholdPercent / 100 is marked with the np.inf
skip sentinel (so it contributes to neither count), and the returned
pass rate equals count(|gamma| <= 1) / count(gamma != sentinel) * 100. -/
theorem C7_thm (R E : Distribution) (dd dta thr : ℚ) (loc : Bool) :
    (∀ i j : ℕ, R.data i j < distMax E * thr / 100 →
      gammaMap R E dd dta thr loc i j = GVal.pinf) ∧
    gammaPassRate R E dd dta thr loc =
      (countGrid R.rows R.cols
          (fun i j => gvalPass (gammaMap R E dd dta thr loc i j)) : ℚ) /
        (countGrid R.rows R.cols
          (fun i j => !(decide (gammaMap R E dd dta thr loc i j = GVal.pinf))) : ℚ) *
        100 := by
  constructor
  · intro i j h
    unfold gammaMap cellValK
    by_cases hcomp : computedB R dta i j = true
    · rw [if_pos hcomp, if_pos h]
    · rw [if_neg hcomp]
  · unfold gammaPassRate passRateK gammaMap
    have hadd := countGrid_add_not R.rows R.cols
      (fun i j => decide (cellValK (kernelF dta E.res) R E dd dta thr loc i j = GVal.pinf))
    have heq : R.rows * R.cols - countGrid R.rows R.cols
        (fun i j => decide (cellValK (kernelF dta E.res) R E dd dta thr loc i j = GVal.pinf)) =
        countGrid R.rows R.cols
        (fun i j => !(decide (cellValK (kernelF dta E.res) R E dd dta thr loc i j = GVal.pinf))) := by
      omega
    rw [heq]

/-- Claim C7 witness: a below-threshold cell of a concrete evaluation
is the sentinel. -/
theorem C7_witness :
    gammaMap (ofLists [[0,1,1],[1,5,1],[1,1,1]] 1)
      (ofLists [[0,1,1],[1,5,1],[1,1,1]] 1) 3 1 50 false 0 0 = GVal.pinf :=
  (C7_thm (ofLists [[0,1,1],[1,5,1],[1,1,1]] 1)
    (ofLists [[0,1,1],[1,5,1],[1,1,1]] 1) 3 1 50 false).1 0 0 (by with_unfolding_all decide)

/-! ### Claim C6: self-comparison -/

lemma resScale_self {R : Distribution} (h : R.res ≠ 0) : resScale R R = 1 := by
  unfold resScale pyInt
  rw [div_self h]
  norm_num

lemma corrIdxZ_self {R : Distribution} (h : R.res ≠ 0) (i : ℕ) :
    corrIdxZ R R i = (i : ℤ) := by
  unfold corrIdxZ
  rw [resScale_self h, mul_one]

lemma corrIdx_self {R : Distribution} (h : R.res ≠ 0) (i : ℕ) :
    corrIdx R R i = i := by
  unfold corrIdx
  rw [corrIdxZ_self h]
  simp

lemma gvalPass_val00 : gvalPass (GVal.val false 0) = true := by
  simp [gvalPass]

lemma termsOf_fin_nonneg {R E : Distribution} {dd dta : ℚ} {loc : Bool}
    {i j : ℕ} (hden : denomOf R E dd loc i j ≠ 0) {q : ℚ}
    (hq : F.fin q ∈ termsOf (kernelF dta E.res) R E dd dta loc i j) : 0 ≤ q := by
  obtain ⟨p, _, hp⟩ := List.mem_map.mp hq
  rcases termF_cases hden
      (E.data (corrIdxZ R E i + p.1).toNat (corrIdxZ R E j + p.2).toNat)
      (R.data i j) dta E.res p.1 p.2 with ⟨_, hinf⟩ | ⟨k, _, hk, hfin⟩
  · rw [hinf] at hp; exact absurd hp (by simp)
  · rw [hfin] at hp
    have hq2 : (E.data (corrIdxZ R E i + p.1).toNat (corrIdxZ R E j + p.2).toNat -
        R.data i j) ^ 2 / (denomOf R E dd loc i j) ^ 2 + k = q := by
      injection hp
    have hd : (0:ℚ) ≤ (E.data (corrIdxZ R E i + p.1).toNat (corrIdxZ R E j + p.2).toNat -
        R.data i j) ^ 2 / (denomOf R E dd loc i j) ^ 2 :=
      div_nonneg (sq_nonneg _) (sq_nonneg _)
    linarith

/-- In a self-comparison with nonzero resolution, nonzero global
denominator and a nonnegative reference dose at the cell, every
visited cell stores the value +sqrt(0) = 0. -/
lemma gammaMap_self_val (R : Distribution) (dd dta : ℚ)
    (hres : R.res ≠ 0) (hdta : 0 ≤ dta) (hmax : distMax R * dd / 100 ≠ 0)
    (i j : ℕ) (hij : 0 ≤ R.data i j)
    (hcomp : computedB R dta i j = true) :
    gammaMap R R dd dta 0 false i j = GVal.val false 0 := by
  have hthr : ¬(R.data i j < distMax R * 0 / 100) := by
    rw [mul_zero, zero_div]
    exact not_lt_of_ge hij
  have hden : denomOf R R dd false i j ≠ 0 := by
    unfold denomOf
    simpa using hmax
  unfold gammaMap cellValK
  rw [if_pos hcomp, if_neg hthr]
  have hcoldf : (decide (R.data i j < R.data (corrIdx R R i) (corrIdx R R j))) = false := by
    rw [corrIdx_self hres, corrIdx_self hres]
    simp
  -- the centre term is fin 0
  have hcenter : (fun p : ℤ × ℤ =>
      fadd (doseTerm (denomOf R R dd false i j)
              (R.data (corrIdxZ R R i + p.1).toNat (corrIdxZ R R j + p.2).toNat)
              (R.data i j))
           (kernelF dta R.res p.1 p.2)) ((0 : ℤ), (0 : ℤ)) = F.fin 0 := by
    show fadd (doseTerm (denomOf R R dd false i j)
        (R.data (corrIdxZ R R i + (0 : ℤ)).toNat (corrIdxZ R R j + (0 : ℤ)).toNat)
        (R.data i j))
      (kernelF dta R.res 0 0) = F.fin 0
    have he : R.data (corrIdxZ R R i + (0 : ℤ)).toNat (corrIdxZ R R j + (0 : ℤ)).toNat =
        R.data i j := by
      rw [corrIdxZ_self hres, corrIdxZ_self hres]
      simp
    have hker : kernelF dta R.res 0 0 = F.fin 0 := by
      simp only [kernelF]
      have hoff : ((Int.natAbs 0 + Int.natAbs 0 : ℕ) : ℚ) / R.res = 0 := by simp
      rw [hoff]
      rw [if_neg (by simpa using hdta)]
      norm_num
    rw [he, hker, doseTerm_of_ne hden]
    simp [fadd]
  have hmem : F.fin 0 ∈ termsOf (kernelF dta R.res) R R dd dta false i j := by
    unfold termsOf
    rw [← hcenter]
    exact List.mem_map_of_mem _ (center_mem_offsets (evalGrids R dta))
  have hnonan := termsOf_no_nan (kernelF dta R.res) R R dd dta false i j
    (fun u v => kernelF_ne_nan dta R.res u v) hden
  obtain ⟨m, hwm, hm0⟩ := windowMin_le_mem hnonan hmem
  have hmge : 0 ≤ m := windowMin_lb hwm (fun q hq => termsOf_fin_nonneg hden hq)
  have : m = 0 := le_antisymm hm0 hmge
  subst this
  rw [hwm, sqrtStore_fin, hcoldf]

/-- Claim C6 (counterexample): the all-zero 3x3 self-comparison has a
zero global denominator; the interior cell becomes nan (0/0), which is
counted in the pass-rate denominator but not in the numerator, giving
pass rate 0, not 100, although resolution, dose criterion and distance
criterion are all positive. -/
theorem C6_cex :
    (0:ℚ) < (allConst 3 0 1).res ∧ ((0:ℚ) < 3 ∧ (0:ℚ) < 1) ∧
    gammaMap (allConst 3 0 1) (allConst 3 0 1) 3 1 0 false 1 1 = GVal.nan ∧
    gammaPassRate (allConst 3 0 1) (allConst 3 0 1) 3 1 0 false = 0 := by
  with_unfolding_all decide

/-- Claim C6 (amended): self-comparison with positive resolution and
positive criteria yields gamma exactly 0 at every visited interior
cell and pass rate exactly 100, provided the reference data is
nonnegative with a nonzero maximum (so the global denominator is
nonzero) and the grid is large enough to have at least one interior
cell. -/
theorem C6_thm (R : Distribution) (dd dta : ℚ)
    (hres : 0 < R.res) (hdd : 0 < dd) (hdta : 0 < dta)
    (hmax : 0 < distMax R)
    (hnn : ∀ i j, i < R.rows → j < R.cols → 0 ≤ R.data i j)
    (hrow : 2 * refGrids R dta < R.rows) (hcol : 2 * refGrids R dta < R.cols) :
    (∀ i j, computedB R dta i j = true →
      gammaMap R R dd dta 0 false i j = GVal.val false 0) ∧
    gammaPassRate R R dd dta 0 false = 100 ∧
    gamma R R dd dta 0 false =
      Except.ok (fun i j => gammaMap R R dd dta 0 false i j, 100) := by
  have hresne : R.res ≠ 0 := ne_of_gt hres
  have hmaxden : distMax R * dd / 100 ≠ 0 :=
    div_ne_zero (mul_ne_zero (ne_of_gt hmax) (ne_of_gt hdd)) (by norm_num)
  have hcompbound : ∀ i j : ℕ, computedB R dta i j = true →
      i < R.rows ∧ j < R.cols ∧ refGrids R dta ≤ i ∧ i < R.rows - refGrids R dta ∧
        refGrids R dta ≤ j ∧ j < R.cols - refGrids R dta := by
    intro i j hcomp
    simp only [computedB, Bool.and_eq_true, decide_eq_true_eq] at hcomp
    obtain ⟨⟨⟨h1, h2⟩, h3⟩, h4⟩ := hcomp
    exact ⟨by omega, by omega, h1, h2, h3, h4⟩
  have hval : ∀ i j, computedB R dta i j = true →
      gammaMap R R dd dta 0 false i j = GVal.val false 0 := by
    intro i j hcomp
    obtain ⟨hi, hj, _⟩ := hcompbound i j hcomp
    exact gammaMap_self_val R dd dta hresne (le_of_lt hdta) hmaxden i j
      (hnn i j hi hj) hcomp
  have hnotcomp : ∀ i j, computedB R dta i j = false →
      gammaMap R R dd dta 0 false i j = GVal.pinf := by
    intro i j hcomp
    unfold gammaMap cellValK
    rw [if_neg (by rw [hcomp]; exact Bool.false_ne_true)]
  -- counts
  have hpassc : countGrid R.rows R.cols
      (fun i j => gvalPass (cellValK (kernelF dta R.res) R R dd dta 0 false i j)) =
      countGrid R.rows R.cols (fun i j => computedB R dta i j) := by
    refine countGrid_congr (fun i j _ _ => ?_)
    cases hcomp : computedB R dta i j with
    | true =>
      have := hval i j hcomp
      unfold gammaMap at this
      rw [this, gvalPass_val00]
    | false =>
      have := hnotcomp i j hcomp
      unfold gammaMap at this
      rw [this]
      rfl
  have hpinfc : countGrid R.rows R.cols
      (fun i j => decide (cellValK (kernelF dta R.res) R R dd dta 0 false i j = GVal.pinf)) =
      countGrid R.rows R.cols (fun i j => !(computedB R dta i j)) := by
    refine countGrid_congr (fun i j _ _ => ?_)
    cases hcomp : computedB R dta i j with
    | true =>
      have := hval i j hcomp
      unfold gammaMap at this
      rw [this]
      simp
    | false =>
      have := hnotcomp i j hcomp
      unfold gammaMap at this
      rw [this]
      simp
  have hN := countGrid_add_not R.rows R.cols (fun i j => computedB R dta i j)
  have hNpos : 0 < countGrid R.rows R.cols (fun i j => computedB R dta i j) := by
    refine countGrid_pos (refGrids R dta) (refGrids R dta)
      (by omega) (by omega) ?_
    simp only [computedB, Bool.and_eq_true, decide_eq_true_eq]
    refine ⟨⟨⟨le_refl _, by omega⟩, le_refl _⟩, by omega⟩
  have hrate : gammaPassRate R R dd dta 0 false = 100 := by
    unfold gammaPassRate passRateK
    rw [hpassc, hpinfc]
    have htp : R.rows * R.cols - countGrid R.rows R.cols
        (fun i j => !(computedB R dta i j)) =
        countGrid R.rows R.cols (fun i j => computedB R dta i j) := by
      have := countGrid_add_not R.rows R.cols (fun i j => computedB R dta i j)
      omega
    rw [htp]
    have hNne : ((countGrid R.rows R.cols (fun i j => computedB R dta i j) : ℕ) : ℚ) ≠ 0 :=
      Nat.cast_ne_zero.mpr (Nat.pos_iff_ne_zero.mp hNpos)
    rw [div_self hNne]
    norm_num
  refine ⟨hval, hrate, ?_⟩
  have hassert : assertOkB R R dta 0 = true := by
    unfold assertOkB
    rw [List.all_eq_true]
    intro i _
    rw [List.all_eq_true]
    intro j _
    cases hcomp : computedB R dta i j with
    | false => simp
    | true =>
      obtain ⟨hi, hj, h1, h2, h3, h4⟩ := hcompbound i j hcomp
      have hslice : sliceOkB R R dta i j = true := by
        unfold sliceOkB
        rw [corrIdxZ_self hresne, corrIdxZ_self hresne]
        have hge : evalGrids R dta = refGrids R dta := rfl
        simp only [hge, Bool.and_eq_true, decide_eq_true_eq]
        refine ⟨⟨⟨?_, ?_⟩, ?_⟩, ?_⟩ <;> omega
      rw [hslice]
      simp
  unfold gamma
  rw [if_pos hassert, hrate]

/-- Claim C6 witness: the uniform 3x3 self-comparison passes at 100%. -/
theorem C6_witness :
    gammaPassRate (allConst 3 1 1) (allConst 3 1 1) 3 1 0 false = 100 :=
  (C6_thm (allConst 3 1 1) 3 1 (by norm_num [allConst]) (by norm_num) (by norm_num)
    (by with_unfolding_all decide)
    (fun i j _ _ => by norm_num [allConst])
    (by with_unfolding_all decide) (by with_unfolding_all decide)).2.1

/-! ### Claim C8: monotonicity of the pass rate in the criteria -/

/-- Raising the dose criterion (with everything else fixed) can only
improve each cell: a passing cell keeps passing, and the np.inf
sentinel pattern is unchanged. -/
lemma cellValK_dd_mono (R E : Distribution) (dta thr : ℚ) (loc : Bool)
    (i j : ℕ) (dd1 dd2 : ℚ) (h1 : 0 < dd1) (h12 : dd1 ≤ dd2) :
    (gvalPass (cellValK (kernelF dta E.res) R E dd1 dta thr loc i j) = true →
      gvalPass (cellValK (kernelF dta E.res) R E dd2 dta thr loc i j) = true) ∧
    (cellValK (kernelF dta E.res) R E dd1 dta thr loc i j = GVal.pinf ↔
      cellValK (kernelF dta E.res) R E dd2 dta thr loc i j = GVal.pinf) := by
  unfold cellValK
  by_cases hcomp : computedB R dta i j = true
  case neg =>
    rw [if_neg hcomp, if_neg hcomp]
    exact ⟨fun h => h, Iff.rfl⟩
  rw [if_pos hcomp, if_pos hcomp]
  by_cases hthr : R.data i j < distMax E * thr / 100
  case pos =>
    rw [if_pos hthr, if_pos hthr]
    exact ⟨fun h => h, Iff.rfl⟩
  rw [if_neg hthr, if_neg hthr]
  by_cases hbase : (if loc then R.data i j else distMax E) = 0
  · -- zero denominator for both criteria: the cells coincide
    have hd1 : denomOf R E dd1 loc i j = 0 := by
      unfold denomOf; rw [hbase, zero_mul, zero_div]
    have hd2 : denomOf R E dd2 loc i j = 0 := by
      unfold denomOf; rw [hbase, zero_mul, zero_div]
    have hterms : termsOf (kernelF dta E.res) R E dd1 dta loc i j =
        termsOf (kernelF dta E.res) R E dd2 dta loc i j := by
      unfold termsOf
      simp only [hd1, hd2]
    rw [hterms]
    exact ⟨fun h => h, Iff.rfl⟩
  · have hdd2 : 0 < dd2 := lt_of_lt_of_le h1 h12
    have hd1 : denomOf R E dd1 loc i j ≠ 0 :=
      div_ne_zero (mul_ne_zero hbase (ne_of_gt h1)) (by norm_num)
    have hd2 : denomOf R E dd2 loc i j ≠ 0 :=
      div_ne_zero (mul_ne_zero hbase (ne_of_gt hdd2)) (by norm_num)
    have hdensq : (denomOf R E dd1 loc i j) ^ 2 ≤ (denomOf R E dd2 loc i j) ^ 2 := by
      unfold denomOf
      rw [div_pow, div_pow, mul_pow, mul_pow]
      gcongr
    have hdensq1 : (0:ℚ) < (denomOf R E dd1 loc i j) ^ 2 :=
      pow_two_pos_of_ne_zero hd1
    have hrel : relMono (windowMin (termsOf (kernelF dta E.res) R E dd1 dta loc i j))
        (windowMin (termsOf (kernelF dta E.res) R E dd2 dta loc i j)) := by
      unfold termsOf
      refine windowMin_rel relMono (Or.inl ⟨rfl, rfl⟩) relMono_compat _ _ _ ?_
      intro p _
      rw [doseTerm_of_ne hd1, doseTerm_of_ne hd2]
      cases hK : kernelF dta E.res p.1 p.2 with
      | nan => exact absurd hK (kernelF_ne_nan _ _ _ _)
      | inf => exact Or.inl ⟨rfl, rfl⟩
      | fin k =>
        refine Or.inr ⟨_, _, rfl, rfl, ?_⟩
        have hle : (E.data (corrIdxZ R E i + p.1).toNat (corrIdxZ R E j + p.2).toNat -
              R.data i j) ^ 2 / (denomOf R E dd2 loc i j) ^ 2 ≤
            (E.data (corrIdxZ R E i + p.1).toNat (corrIdxZ R E j + p.2).toNat -
              R.data i j) ^ 2 / (denomOf R E dd1 loc i j) ^ 2 := by
          gcongr
        linarith
    rcases hrel with ⟨hm1, hm2⟩ | ⟨p, q, hm1, hm2, hpq⟩
    · rw [hm1, hm2]
      exact ⟨fun h => h, Iff.rfl⟩
    · rw [hm1, hm2, sqrtStore_fin, sqrtStore_fin]
      constructor
      · intro h
        simp only [gvalPass, decide_eq_true_eq] at h ⊢
        linarith
      · simp

/-- Claim C8 (counterexample): for the concrete 5x5 pair below, the
pass rate at distance criterion 1 is 800/9 but at the LARGER distance
criterion 2 it is 0, because the grown border-skip region removes the
eight passing cells and leaves only the failing centre cell: the pass
rate is NOT monotone in the distance criterion. -/
theorem C8_cex :
    (0:ℚ) < 1 ∧ ((1:ℚ) < 2) ∧
    gammaPassRate (ofLists [[1,1,1,1,1],[1,1,1,1,1],[1,1,2,1,1],[1,1,1,1,1],[1,1,1,1,1]] 1)
        (allConst 5 1 1) 10 2 0 false <
      gammaPassRate (ofLists [[1,1,1,1,1],[1,1,1,1,1],[1,1,2,1,1],[1,1,1,1,1],[1,1,1,1,1]] 1)
        (allConst 5 1 1) 10 1 0 false := by
  with_unfolding_all decide

/-- Claim C8 (amended): for fixed distributions, threshold, locality
and distance criterion, the pass rate is monotone non-decreasing in
the dose criterion (monotonicity in the distance criterion fails, see
the counterexample). -/
theorem C8_thm (R E : Distribution) (dta thr : ℚ) (loc : Bool)
    (dd1 dd2 : ℚ) (h1 : 0 < dd1) (h12 : dd1 ≤ dd2) :
    gammaPassRate R E dd1 dta thr loc ≤ gammaPassRate R E dd2 dta thr loc := by
  unfold gammaPassRate passRateK
  have hcell := fun i j => cellValK_dd_mono R E dta thr loc i j dd1 dd2 h1 h12
  have hpassle : countGrid R.rows R.cols
      (fun i j => gvalPass (cellValK (kernelF dta E.res) R E dd1 dta thr loc i j)) ≤
      countGrid R.rows R.cols
      (fun i j => gvalPass (cellValK (kernelF dta E.res) R E dd2 dta thr loc i j)) :=
    countGrid_mono (fun i j _ _ => (hcell i j).1)
  have hpinfeq : countGrid R.rows R.cols
      (fun i j => decide (cellValK (kernelF dta E.res) R E dd1 dta thr loc i j = GVal.pinf)) =
      countGrid R.rows R.cols
      (fun i j => decide (cellValK (kernelF dta E.res) R E dd2 dta thr loc i j = GVal.pinf)) :=
    countGrid_congr (fun i j _ _ => decide_eq_decide.mpr (hcell i j).2)
  rw [hpinfeq]
  have hnp : ((countGrid R.rows R.cols
      (fun i j => gvalPass (cellValK (kernelF dta E.res) R E dd1 dta thr loc i j)) : ℕ) : ℚ) ≤
      ((countGrid R.rows R.cols
      (fun i j => gvalPass (cellValK (kernelF dta E.res) R E dd2 dta thr loc i j)) : ℕ) : ℚ) :=
    Nat.cast_le.mpr hpassle
  have ht : (0:ℚ) ≤ ((R.rows * R.cols - countGrid R.rows R.cols
      (fun i j => decide (cellValK (kernelF dta E.res) R E dd2 dta thr loc i j = GVal.pinf)) : ℕ) : ℚ) :=
    Nat.cast_nonneg _
  rcases eq_or_lt_of_le ht with h0 | h0
  · rw [← h0, div_zero, div_zero]
  · exact mul_le_mul_of_nonneg_right ((div_le_div_iff_of_pos_right h0).mpr hnp) (by norm_num)

/-- Claim C8 witness: the amended dose-criterion monotonicity applied
to a concrete pair. -/
theorem C8_witness :
    gammaPassRate (ofLists [[1,1,1,1,1],[1,1,1,1,1],[1,1,2,1,1],[1,1,1,1,1],[1,1,1,1,1]] 1)
        (allConst 5 1 1) 3 1 0 false ≤
      gammaPassRate (ofLists [[1,1,1,1,1],[1,1,1,1,1],[1,1,2,1,1],[1,1,1,1,1],[1,1,1,1,1]] 1)
        (allConst 5 1 1) 6 1 0 false :=
  C8_thm (ofLists [[1,1,1,1,1],[1,1,1,1,1],[1,1,2,1,1],[1,1,1,1,1],[1,1,1,1,1]] 1)
    (allConst 5 1 1) 1 0 false 3 6 (by norm_num) (by norm_num)

/-! ### Claim C3: behaviour on non-integer resolution ratios -/

/-- Claim C3 (counterexample): reference 4x4 at resolution 1 against
evaluated 7x7 at resolution 5/2: the resolution ratio 5/2 is not an
integer (its denominator is 2), yet gamma completes normally — it
silently truncates the ratio via int() to res_scale = 2 and returns a
fully computed map and pass rate instead of aborting. -/
theorem C3_cex :
    ((allConst 7 1 (5/2)).res / (allConst 4 1 1).res).den ≠ 1 ∧
    resScale (allConst 4 1 1) (allConst 7 1 (5/2)) = 2 ∧
    exceptIsOk (gamma (allConst 4 1 1) (allConst 7 1 (5/2)) 1 (2/5) 0 false) = true := by
  with_unfolding_all decide

/-- Claim C3 (amended): gamma never validates the integrality of the
resolution ratio; it truncates it toward zero via int() and proceeds.
The call completes with a fully computed map and pass rate exactly
when every visited non-thresholded cell's window slice fits inside the
evaluated array (the kernel-shape assert), a condition independent of
the ratio's integrality. -/
theorem C3_thm (R E : Distribution) (dd dta thr : ℚ) (loc : Bool)
    (h : assertOkB R E dta thr = true) :
    gamma R E dd dta thr loc =
      Except.ok (fun i j => gammaMap R E dd dta thr loc i j,
        gammaPassRate R E dd dta thr loc) := by
  unfold gamma
  rw [if_pos h]

/-- Claim C3 witness: the amended theorem at the concrete non-integer
ratio 5/2. -/
theorem C3_witness :
    gamma (allConst 4 1 1) (allConst 7 1 (5/2)) 1 (2/5) 0 false =
      Except.ok (fun i j => gammaMap (allConst 4 1 1) (allConst 7 1 (5/2)) 1 (2/5) 0 false i j,
        gammaPassRate (allConst 4 1 1) (allConst 7 1 (5/2)) 1 (2/5) 0 false) :=
  C3_thm (allConst 4 1 1) (allConst 7 1 (5/2)) 1 (2/5) 0 false
    (by with_unfolding_all decide)

/-! ### Claim C5: the distance kernel -/

lemma getD_map_range {β : Type} (f : ℕ → β) (n a : ℕ) (h : a < n) (d : β) :
    ((List.range n).map f).getD a d = f a := by
  rw [List.getD_eq_getElem _ _ (by simpa using h)]
  simp

/-- The sweep's kernel function agrees with the create_distance_kernel
array entrywise. -/
lemma kernelC_entry (dta r : ℚ) (a b : ℕ)
    (ha : a < 2 * (⌈dta * r⌉).toNat + 1) (hb : b < 2 * (⌈dta * r⌉).toNat + 1) :
    F.fin (((create_distance_kernel dta r).getD a []).getD b 0) =
      kernelC dta r ((a : ℤ) - (⌈dta * r⌉).toNat) ((b : ℤ) - (⌈dta * r⌉).toNat) := by
  unfold create_distance_kernel
  rw [getD_map_range _ _ _ ha, getD_map_range _ _ _ hb]
  simp only [kernelC]
  split <;> rfl

/-- Claim C5: create_distance_kernel(d, r) is a square array of odd
side 2k+1, k = ceil(d*r); its entry at (a, b) — grid offset
(a-k, b-k) — is ((|a-k| + |b-k|) / r)^2 / d^2 when that Manhattan
physical offset does not exceed d, and the large finite sentinel
10^9 / d^2 otherwise; and the concrete 3x3 instance for d = 2,
r = 1/2 has centre 0, axis-adjacent entries 1 and diagonal entries
equal to the sentinel 250000000. -/
theorem C5_thm (d r : ℚ) (_hd : 0 < d) (hr : 0 < r) :
    (create_distance_kernel d r).length = 2 * (⌈d * r⌉).toNat + 1 ∧
    (∀ row ∈ create_distance_kernel d r, row.length = 2 * (⌈d * r⌉).toNat + 1) ∧
    (∀ a b : ℕ, a < 2 * (⌈d * r⌉).toNat + 1 → b < 2 * (⌈d * r⌉).toNat + 1 →
      ((create_distance_kernel d r).getD a []).getD b 0 =
        (if ((((a : ℤ) - (⌈d * r⌉).toNat).natAbs +
              ((b : ℤ) - (⌈d * r⌉).toNat).natAbs : ℕ) : ℚ) / r ≤ d then
          (((((a : ℤ) - (⌈d * r⌉).toNat).natAbs +
              ((b : ℤ) - (⌈d * r⌉).toNat).natAbs : ℕ) : ℚ) / r) ^ 2 / d ^ 2
        else 1000000000 / d ^ 2)) ∧
    create_distance_kernel 2 (1/2) =
      [[250000000, 1, 250000000], [1, 0, 1], [250000000, 1, 250000000]] := by
  refine ⟨?_, ?_, ?_, ?_⟩
  · unfold create_distance_kernel
    simp
  · intro row hrow
    unfold create_distance_kernel at hrow
    obtain ⟨a, _, rfl⟩ := List.mem_map.mp hrow
    simp
  · intro a b ha hb
    unfold create_distance_kernel
    rw [getD_map_range _ _ _ ha, getD_map_range _ _ _ hb]
    have habs : |((((a : ℤ) - (⌈d * r⌉).toNat).natAbs +
        ((b : ℤ) - (⌈d * r⌉).toNat).natAbs : ℕ) : ℚ) / r| =
        ((((a : ℤ) - (⌈d * r⌉).toNat).natAbs +
        ((b : ℤ) - (⌈d * r⌉).toNat).natAbs : ℕ) : ℚ) / r :=
      abs_of_nonneg (div_nonneg (Nat.cast_nonneg _) (le_of_lt hr))
    rw [habs]
    by_cases hcase : ((((a : ℤ) - (⌈d * r⌉).toNat).natAbs +
        ((b : ℤ) - (⌈d * r⌉).toNat).natAbs : ℕ) : ℚ) / r ≤ d
    · rw [if_neg (not_lt_of_ge hcase), if_pos hcase]
    · rw [if_pos (lt_of_not_ge hcase), if_neg hcase]
  · with_unfolding_all rfl

/-- Claim C5 witness: the kernel-shape part of the theorem applied at
the concrete criteria of the repository's own test. -/
theorem C5_witness :
    (create_distance_kernel 2 (1/2)).length = 2 * (⌈(2 : ℚ) * (1/2)⌉).toNat + 1 :=
  (C5_thm 2 (1/2) (by norm_num) (by norm_num)).1

/-! ### Claim C10: the pass-rate sweep -/

lemma getD_map {α β : Type} (f : α → β) (l : List α) (n : ℕ) (h : n < l.length)
    (d : β) (dflt : α) : (l.map f).getD n d = f (l.getD n dflt) := by
  rw [List.getD_eq_getElem _ _ (by simpa using h), List.getD_eq_getElem _ _ h]
  simp

lemma getD_mem {α : Type} (l : List α) (n : ℕ) (d : α) (h : n < l.length) :
    l.getD n d ∈ l := by
  rw [List.getD_eq_getElem l d h]
  exact List.getElem_mem h

/-- With a nonzero denominator and a nonnegative distance criterion,
the minimised squared index against the inf-sentinel kernel is finite
(the centre term of the window is finite). -/
lemma windowMin_termsF_fin (R E : Distribution) (dd dta : ℚ) (loc : Bool)
    (i j : ℕ) (hden : denomOf R E dd loc i j ≠ 0) (hdta : 0 ≤ dta) :
    ∃ m, windowMin (termsOf (kernelF dta E.res) R E dd dta loc i j) = F.fin m := by
  have hker : kernelF dta E.res 0 0 =
      F.fin ((((Int.natAbs 0 + Int.natAbs 0 : ℕ) : ℚ) / E.res) ^ 2 / dta ^ 2) := by
    simp only [kernelF]
    rw [if_neg]
    have hoff : ((Int.natAbs 0 + Int.natAbs 0 : ℕ) : ℚ) / E.res = 0 := by simp
    rw [hoff]
    simpa using hdta
  have hcen : (fun p : ℤ × ℤ =>
      fadd (doseTerm (denomOf R E dd loc i j)
              (E.data (corrIdxZ R E i + p.1).toNat (corrIdxZ R E j + p.2).toNat)
              (R.data i j))
           (kernelF dta E.res p.1 p.2)) ((0 : ℤ), (0 : ℤ)) =
      F.fin ((E.data (corrIdxZ R E i + (0:ℤ)).toNat (corrIdxZ R E j + (0:ℤ)).toNat -
          R.data i j) ^ 2 / (denomOf R E dd loc i j) ^ 2 +
        (((Int.natAbs 0 + Int.natAbs 0 : ℕ) : ℚ) / E.res) ^ 2 / dta ^ 2) := by
    show fadd (doseTerm (denomOf R E dd loc i j)
        (E.data (corrIdxZ R E i + (0:ℤ)).toNat (corrIdxZ R E j + (0:ℤ)).toNat)
        (R.data i j)) (kernelF dta E.res 0 0) = _
    rw [hker, doseTerm_of_ne hden]
    rfl
  have hmem : F.fin ((E.data (corrIdxZ R E i + (0:ℤ)).toNat (corrIdxZ R E j + (0:ℤ)).toNat -
      R.data i j) ^ 2 / (denomOf R E dd loc i j) ^ 2 +
      (((Int.natAbs 0 + Int.natAbs 0 : ℕ) : ℚ) / E.res) ^ 2 / dta ^ 2) ∈
      termsOf (kernelF dta E.res) R E dd dta loc i j := by
    unfold termsOf
    rw [← hcen]
    exact List.mem_map_of_mem _ (center_mem_offsets (evalGrids E dta))
  have hnonan := termsOf_no_nan (kernelF dta E.res) R E dd dta loc i j
    (fun u v => kernelF_ne_nan dta E.res u v) hden
  obtain ⟨m, hm, _⟩ := windowMin_le_mem hnonan hmem
  exact ⟨m, hm⟩

/-- Per-cell agreement of the inf-sentinel kernel (used by gamma) and
the finite-sentinel kernel of create_distance_kernel (used by the
sweep), for a positive distance criterion whose square is below the
raw sentinel: the pass flag and the np.inf sentinel flag coincide. -/
lemma cellValK_kernel_equiv (R E : Distribution) (dd dta thr : ℚ) (loc : Bool)
    (i j : ℕ) (hdta : 0 < dta) (hbig : dta ^ 2 < 1000000000) :
    (gvalPass (cellValK (kernelC dta E.res) R E dd dta thr loc i j) =
      gvalPass (cellValK (kernelF dta E.res) R E dd dta thr loc i j)) ∧
    (cellValK (kernelC dta E.res) R E dd dta thr loc i j = GVal.pinf ↔
      cellValK (kernelF dta E.res) R E dd dta thr loc i j = GVal.pinf) := by
  unfold cellValK
  by_cases hcomp : computedB R dta i j = true
  case neg =>
    rw [if_neg hcomp, if_neg hcomp]
    exact ⟨rfl, Iff.rfl⟩
  rw [if_pos hcomp, if_pos hcomp]
  by_cases hthr : R.data i j < distMax E * thr / 100
  case pos =>
    rw [if_pos hthr, if_pos hthr]
    exact ⟨rfl, Iff.rfl⟩
  rw [if_neg hthr, if_neg hthr]
  by_cases hden : denomOf R E dd loc i j = 0
  · -- zero denominator: every term is inf or nan independently of the kernel
    have hterms : termsOf (kernelC dta E.res) R E dd dta loc i j =
        termsOf (kernelF dta E.res) R E dd dta loc i j := by
      unfold termsOf
      refine List.map_congr_left (fun p _ => ?_)
      rcases doseTerm_of_zero hden
          (E.data (corrIdxZ R E i + p.1).toNat (corrIdxZ R E j + p.2).toNat)
          (R.data i j) with hnan | hinf
      · rw [hnan, fadd_nan_left, fadd_nan_left]
      · rw [hinf, fadd_inf_left (kernelC_ne_nan _ _ _ _),
          fadd_inf_left (kernelF_ne_nan _ _ _ _)]
    rw [hterms]
    exact ⟨rfl, Iff.rfl⟩
  · have hdta2 : (0:ℚ) < dta ^ 2 := pow_two_pos_of_ne_zero (ne_of_gt hdta)
    have hS : (1:ℚ) < 1000000000 / dta ^ 2 := by
      rw [lt_div_iff₀ hdta2, one_mul]
      exact hbig
    have hrel : relGap (windowMin (termsOf (kernelF dta E.res) R E dd dta loc i j))
        (windowMin (termsOf (kernelC dta E.res) R E dd dta loc i j)) := by
      unfold termsOf
      refine windowMin_rel relGap (Or.inl ⟨rfl, Or.inl rfl⟩) relGap_compat _ _ _ ?_
      intro p _
      rw [doseTerm_of_ne hden]
      have hdnn : (0:ℚ) ≤ (E.data (corrIdxZ R E i + p.1).toNat (corrIdxZ R E j + p.2).toNat -
          R.data i j) ^ 2 / (denomOf R E dd loc i j) ^ 2 :=
        div_nonneg (sq_nonneg _) (sq_nonneg _)
      simp only [kernelF, kernelC]
      by_cases hoff : dta < |((p.1.natAbs + p.2.natAbs : ℕ) : ℚ) / E.res|
      · rw [if_pos hoff, if_pos hoff]
        refine Or.inl ⟨rfl, Or.inr ⟨_, rfl, ?_⟩⟩
        linarith
      · rw [if_neg hoff, if_neg hoff]
        exact Or.inr ⟨_, _, rfl, rfl, le_refl _, fun h => absurd h (lt_irrefl _)⟩
    obtain ⟨mF, hmF⟩ := windowMin_termsF_fin R E dd dta loc i j hden (le_of_lt hdta)
    rw [hmF] at hrel
    rcases hrel with ⟨habs, _⟩ | ⟨p, q, hp, hq, hle, hgap⟩
    · exact absurd habs (by simp)
    · have hpm : p = mF := by injection hp.symm
      subst hpm
      rw [hmF, hq, sqrtStore_fin, sqrtStore_fin]
      constructor
      · simp only [gvalPass]
        refine decide_eq_decide.mpr ?_
        constructor
        · intro hq1
          rcases eq_or_lt_of_le hle with rfl | hlt
          · exact hq1
          · exact absurd (hgap hlt) (not_lt_of_ge hq1)
        · intro hp1
          exact le_trans hle hp1
      · simp

/-- The sweep's pass rate with the finite-sentinel kernel equals
gamma's pass rate with the inf-sentinel kernel. -/
lemma passRateK_kernelC_eq (R E : Distribution) (dd dta thr : ℚ) (loc : Bool)
    (hdta : 0 < dta) (hbig : dta ^ 2 < 1000000000) :
    passRateK (kernelC dta E.res) R E dd dta thr loc =
      passRateK (kernelF dta E.res) R E dd dta thr loc := by
  unfold passRateK
  have hcell := fun i j => cellValK_kernel_equiv R E dd dta thr loc i j hdta hbig
  rw [countGrid_congr (fun i j _ _ => (hcell i j).1),
    countGrid_congr (fun i j _ _ => decide_eq_decide.mpr (hcell i j).2)]

/-- Claim C10: gamma_pass_rate returns a table of shape
(#doseCriteria, #distanceCriteria) indexed [doseIndex, distanceIndex]
whose every entry equals the pass rate gamma returns for the same
single criterion pair, threshold and locality flag (for positive
distance criteria below the kernel sentinel scale, i.e.
dta^2 < 10^9). -/
theorem C10_thm (R E : Distribution) (ddL dtaL : List ℚ) (thr : ℚ) (loc : Bool)
    (hdta : ∀ dta ∈ dtaL, 0 < dta ∧ dta ^ 2 < 1000000000) :
    (gamma_pass_rate R E ddL dtaL thr loc).length = ddL.length ∧
    (∀ row ∈ gamma_pass_rate R E ddL dtaL thr loc, row.length = dtaL.length) ∧
    (∀ yi xi, yi < ddL.length → xi < dtaL.length →
      ((gamma_pass_rate R E ddL dtaL thr loc).getD yi []).getD xi 0 =
        gammaPassRate R E (ddL.getD yi 0) (dtaL.getD xi 0) thr loc) := by
  refine ⟨by simp [gamma_pass_rate], ?_, ?_⟩
  · intro row hrow
    unfold gamma_pass_rate at hrow
    obtain ⟨dd0, _, rfl⟩ := List.mem_map.mp hrow
    simp
  · intro yi xi hy hx
    unfold gamma_pass_rate
    rw [getD_map _ ddL yi hy [] 0, getD_map _ dtaL xi hx 0 0]
    unfold gamma_evaluation_c gammaPassRate
    obtain ⟨h1, h2⟩ := hdta (dtaL.getD xi 0) (getD_mem dtaL xi 0 hx)
    exact passRateK_kernelC_eq R E (ddL.getD yi 0) (dtaL.getD xi 0) thr loc h1 h2

/-- Claim C10 witness: the single-pair sweep over a concrete uniform
self-comparison produces exactly gamma's pass rate. -/
theorem C10_witness :
    ((gamma_pass_rate (allConst 3 1 1) (allConst 3 1 1) [3] [1] 0 false).getD 0 []).getD 0 0 =
      gammaPassRate (allConst 3 1 1) (allConst 3 1 1) 3 1 0 false :=
  (C10_thm (allConst 3 1 1) (allConst 3 1 1) [3] [1] 0 false
    (by
      intro dta hmem
      rw [List.mem_singleton] at hmem
      subst hmem
      norm_num)).2.2 0 0 (by norm_num) (by norm_num)

/-! ### Claim C4: non-finite values and the pass-rate count -/

/-- Claim C4 (counterexample): a local evaluation with D_r = 0 at the
computed cell (1,1) divides by a zero denominator; every window term
is +inf, the point is cold (0 < 1 at the corresponding cell), so the
stored value is -inf — which is NOT the np.inf skip sentinel: the
pass-rate denominator (size - count(gamma == inf)) still counts it
(it equals 1, not 0), and the returned pass rate is 0.  The non-finite
value is not normalised to the sentinel and does flow into the
pass-rate count. -/
theorem C4_cex :
    gammaMap (ofLists [[1,1,1],[1,0,1],[1,1,1]] 1) (allConst 3 1 1) 3 1 0 true 1 1 =
      GVal.ninf ∧
    (3 * 3 - countGrid 3 3 (fun i j => decide
      (gammaMap (ofLists [[1,1,1],[1,0,1],[1,1,1]] 1) (allConst 3 1 1) 3 1 0 true i j =
        GVal.pinf))) = 1 ∧
    gammaPassRate (ofLists [[1,1,1],[1,0,1],[1,1,1]] 1) (allConst 3 1 1) 3 1 0 true = 0 := by
  with_unfolding_all decide

/-- Claim C4 (amended): under local normalisation, a computed
unskipped cell with D_r = 0 whose corresponding evaluated dose is
positive and whose window doses are all nonzero stores -inf: a
non-finite value that is not the np.inf sentinel, fails the
|gamma| <= 1 test, and is therefore counted in the pass-rate
denominator as a failing point (only +inf coincides with the sentinel
and is excluded). -/
theorem C4_thm (R E : Distribution) (dd dta thr : ℚ) (i j : ℕ)
    (hcomp : computedB R dta i j = true)
    (hthr : ¬(R.data i j < distMax E * thr / 100))
    (hDr : R.data i j = 0)
    (hEc : 0 < E.data (corrIdx R E i) (corrIdx R E j))
    (hwin : ∀ p ∈ offsets (evalGrids E dta),
      E.data (corrIdxZ R E i + p.1).toNat (corrIdxZ R E j + p.2).toNat ≠ 0) :
    gammaMap R E dd dta thr true i j = GVal.ninf ∧
    gammaMap R E dd dta thr true i j ≠ GVal.pinf ∧
    gvalPass (gammaMap R E dd dta thr true i j) = false := by
  have hden : denomOf R E dd true i j = 0 := by
    simp [denomOf, hDr]
  have hmain : gammaMap R E dd dta thr true i j = GVal.ninf := by
    unfold gammaMap cellValK
    rw [if_pos hcomp, if_neg hthr]
    have hallinf : ∀ x ∈ termsOf (kernelF dta E.res) R E dd dta true i j, x = F.inf := by
      intro x hx
      obtain ⟨p, hp, rfl⟩ := List.mem_map.mp hx
      have hnum : (E.data (corrIdxZ R E i + p.1).toNat (corrIdxZ R E j + p.2).toNat -
          R.data i j) ^ 2 ≠ 0 := by
        rw [hDr, sub_zero]
        exact pow_ne_zero 2 (hwin p hp)
      have hdose : doseTerm (denomOf R E dd true i j)
          (E.data (corrIdxZ R E i + p.1).toNat (corrIdxZ R E j + p.2).toNat)
          (R.data i j) = F.inf := by
        unfold doseTerm
        rw [if_pos hden, if_neg hnum]
      rw [hdose, fadd_inf_left (kernelF_ne_nan _ _ _ _)]
    rw [windowMin_all_inf hallinf, sqrtStore_inf]
    rw [if_pos]
    rw [hDr]
    simpa using hEc
  refine ⟨hmain, ?_, ?_⟩
  · rw [hmain]
    simp
  · rw [hmain]
    rfl

/-- Claim C4 witness: the amended theorem at a concrete local
evaluation with a zero reference dose. -/
theorem C4_witness :
    gammaMap (ofLists [[1,1,1],[1,0,1],[1,1,1]] 1) (allConst 3 2 1) 3 1 0 true 1 1 =
      GVal.ninf :=
  (C4_thm (ofLists [[1,1,1],[1,0,1],[1,1,1]] 1) (allConst 3 2 1) 3 1 0 1 1
    (by with_unfolding_all decide) (by with_unfolding_all decide)
    (by with_unfolding_all decide) (by with_unfolding_all decide)
    (by with_unfolding_all decide)).1

/-! ### Claim C9: scale_grid self-resampling identity -/

/-- A distribution on a regular rectangular grid as consumed by
Distribution.scale_grid (distribution.py lines 115-178): the column
positions x = position[0, 0, :], the row positions y =
position[1, :, 0], the row-major data (data[y_index][x_index]) and the
resolution.  scale_grid only reads the two axes, so a rectangular
meshgrid position array is represented by its axes. -/
structure RectDistribution where
  xs : List ℚ
  ys : List ℚ
  data : List (List ℚ)
  res : ℚ
deriving DecidableEq, Repr

/-- np.linspace(a, b, n): n evenly spaced points from a to b
inclusive (for n = 1, just [a]). -/
def linspace (a b : ℚ) (n : ℕ) : List ℚ :=
  (List.range n).map (fun (i : ℕ) => a + (b - a) * i / ((n : ℚ) - 1))

/-- Piecewise-linear interpolation through knot/value pairs (the
degree-1 spline of scipy's RectBivariateSpline along one axis): locate
the first segment whose right knot is at least the query and evaluate
the affine interpolant there. -/
def interp1 : List (ℚ × ℚ) → ℚ → ℚ
  | [], _ => 0
  | [p], _ => p.2
  | p :: q :: rest, t =>
    if t ≤ q.1 then p.2 + (q.2 - p.2) * (t - p.1) / (q.1 - p.1)
    else interp1 (q :: rest) t

/-- Tensor-product (bilinear) interpolation of the gridded data, as
RectBivariateSpline(x, y, data.T, kx=1, ky=1) evaluates at (xq, yq):
interpolate each data row along x, then interpolate the results along
y. -/
def interp2 (xs ys : List ℚ) (data : List (List ℚ)) (xq yq : ℚ) : ℚ :=
  interp1 (ys.zip (data.map (fun row => interp1 (xs.zip row) xq))) yq

/-- Distribution.scale_grid in the self-resampling call
(reference_distribution = None, new_resolution = None, hence
scale = 1): per lines 143-178, the new axes are np.linspace over the
existing endpoints with the unchanged point count
(scale * (len - 1) + 1 = len), the data is the bilinear interpolant of
the source evaluated on the new grid, the resolution is the reference
resolution (the source's own), and a brand-new distribution is
returned; the source is not modified (the embedding is purely
functional). -/
def scale_grid (d : RectDistribution) : RectDistribution :=
  { xs := linspace (d.xs.getD 0 0) (d.xs.getD (d.xs.length - 1) 0) d.xs.length
    ys := linspace (d.ys.getD 0 0) (d.ys.getD (d.ys.length - 1) 0) d.ys.length
    data := (linspace (d.ys.getD 0 0) (d.ys.getD (d.ys.length - 1) 0) d.ys.length).map
      (fun yq => (linspace (d.xs.getD 0 0) (d.xs.getD (d.xs.length - 1) 0) d.xs.length).map
        (fun xq => interp2 d.xs d.ys d.data xq yq))
    res := d.res }

/-- A regularly spaced axis a, a+h, ..., a+(n-1)h. -/
def apList (a h : ℚ) (n : ℕ) : List ℚ :=
  (List.range n).map (fun (i : ℕ) => a + i * h)

lemma apList_length (a h : ℚ) (n : ℕ) : (apList a h n).length = n := by
  simp [apList]

lemma apList_getD (a h : ℚ) {n i : ℕ} (hi : i < n) (d : ℚ) :
    (apList a h n).getD i d = a + i * h := by
  unfold apList
  rw [getD_map_range _ _ _ hi]

lemma apList_pairwise (a h : ℚ) (n : ℕ) (hh : 0 < h) :
    List.Pairwise (· < ·) (apList a h n) := by
  unfold apList
  rw [List.pairwise_map]
  refine (List.pairwise_lt_range n).imp ?_
  intro i j hij
  have : (i : ℚ) < j := by exact_mod_cast hij
  have := mul_lt_mul_of_pos_right this hh
  linarith

/-- Regenerating a regularly spaced axis with np.linspace over its own
endpoints and point count reproduces it exactly. -/
lemma linspace_apList (a h : ℚ) (n : ℕ) :
    linspace ((apList a h n).getD 0 0) ((apList a h n).getD (n - 1) 0) n =
      apList a h n := by
  cases n with
  | zero => rfl
  | succ m =>
    rw [apList_getD a h (by omega) 0, apList_getD a h (by omega) 0]
    unfold linspace apList
    refine List.map_congr_left (fun i hi => ?_)
    rw [List.mem_range] at hi
    have hc : ((m + 1 : ℕ) : ℚ) - 1 = (m : ℚ) := by push_cast; ring
    rw [hc]
    rcases Nat.eq_zero_or_pos m with rfl | hm
    · have : i = 0 := by omega
      subst this
      norm_num
    · have hmQ : ((m : ℚ)) ≠ 0 := Nat.cast_ne_zero.mpr (by omega)
      push_cast
      field_simp
      ring

lemma interp1_cons2 (p q : ℚ × ℚ) (rest : List (ℚ × ℚ)) (t : ℚ) :
    interp1 (p :: q :: rest) t =
      if t ≤ q.1 then p.2 + (q.2 - p.2) * (t - p.1) / (q.1 - p.1)
      else interp1 (q :: rest) t := rfl

/-- Linear interpolation is exact at the knots (for strictly
increasing knots). -/
lemma interp1_knot (l : List (ℚ × ℚ))
    (hp : List.Pairwise (fun s t : ℚ × ℚ => s.1 < t.1) l)
    (k : ℕ) (hk : k < l.length) :
    interp1 l (l.getD k (0, 0)).1 = (l.getD k (0, 0)).2 := by
  induction l generalizing k with
  | nil => exact absurd hk (by simp)
  | cons p l ih =>
    cases l with
    | nil =>
      have hk0 : k = 0 := by
        have : k < 1 := by simpa using hk
        omega
      subst hk0
      rfl
    | cons q rest =>
      rcases List.pairwise_cons.mp hp with ⟨hpall, hp2⟩
      have hpq : p.1 < q.1 := hpall q (List.mem_cons_self q rest)
      rcases k with _ | k1
      · show interp1 (p :: q :: rest) p.1 = p.2
        rw [interp1_cons2, if_pos (le_of_lt hpq), sub_self, mul_zero, zero_div,
          add_zero]
      · rcases k1 with _ | k2
        · show interp1 (p :: q :: rest) q.1 = q.2
          rw [interp1_cons2, if_pos (le_refl _), mul_div_assoc,
            div_self (sub_ne_zero.mpr (ne_of_gt hpq)), mul_one]
          ring
        · have hk2 : k2 + 1 < (q :: rest).length := by
            simpa using hk
          have hgd : ((p :: q :: rest).getD (k2 + 2) (0, 0)) =
              ((q :: rest).getD (k2 + 1) (0, 0)) := rfl
          rw [hgd]
          have hmem : ((q :: rest).getD (k2 + 1) (0, 0)) ∈ rest := by
            have hr : ((q :: rest).getD (k2 + 1) (0, 0)) = rest.getD k2 (0, 0) := rfl
            rw [hr]
            exact getD_mem rest k2 (0, 0) (by simpa using hk2)
          have ht : q.1 < ((q :: rest).getD (k2 + 1) (0, 0)).1 := by
            rcases List.pairwise_cons.mp hp2 with ⟨hqall, _⟩
            exact hqall _ hmem
          rw [interp1_cons2, if_neg (not_le.mpr ht)]
          exact ih hp2 (k2 + 1) hk2

lemma pairwise_zip_fst {xs vs : List ℚ} (hxs : List.Pairwise (· < ·) xs)
    (hlen : xs.length ≤ vs.length) :
    List.Pairwise (fun s t : ℚ × ℚ => s.1 < t.1) (xs.zip vs) :=
  List.pairwise_map.mp (by rw [List.map_fst_zip _ _ hlen]; exact hxs)

lemma getD_zip {xs vs : List ℚ} {k : ℕ} (hx : k < xs.length) (hv : k < vs.length) :
    (xs.zip vs).getD k (0, 0) = (xs.getD k 0, vs.getD k 0) := by
  have hz : k < (xs.zip vs).length := by
    rw [List.length_zip]
    omega
  rw [List.getD_eq_getElem _ _ hz, List.getElem_zip,
    List.getD_eq_getElem _ _ hx, List.getD_eq_getElem _ _ hv]

/-- Bilinear interpolation is exact at the grid nodes. -/
lemma interp2_knot (xs ys : List ℚ) (data : List (List ℚ))
    (hxs : List.Pairwise (· < ·) xs) (hys : List.Pairwise (· < ·) ys)
    (hdl : data.length = ys.length)
    (hrl : ∀ row ∈ data, row.length = xs.length)
    (jk ik : ℕ) (hj : jk < ys.length) (hi : ik < xs.length) :
    interp2 xs ys data (xs.getD ik 0) (ys.getD jk 0) =
      (data.getD jk []).getD ik 0 := by
  unfold interp2
  have hglen : (data.map (fun row => interp1 (xs.zip row) (xs.getD ik 0))).length =
      data.length := by simp
  have hpz : List.Pairwise (fun s t : ℚ × ℚ => s.1 < t.1)
      (ys.zip (data.map (fun row => interp1 (xs.zip row) (xs.getD ik 0)))) :=
    pairwise_zip_fst hys (by omega)
  have hziplen : jk < (ys.zip (data.map
      (fun row => interp1 (xs.zip row) (xs.getD ik 0)))).length := by
    rw [List.length_zip]
    omega
  have h1 := interp1_knot _ hpz jk hziplen
  rw [getD_zip hj (by omega)] at h1
  dsimp only at h1
  rw [h1]
  rw [getD_map _ data jk (by omega) 0 []]
  have hrow : (data.getD jk []).length = xs.length :=
    hrl _ (getD_mem data jk [] (by omega))
  have hpzx : List.Pairwise (fun s t : ℚ × ℚ => s.1 < t.1)
      (xs.zip (data.getD jk [])) :=
    pairwise_zip_fst hxs (by omega)
  have hzxlen : ik < (xs.zip (data.getD jk [])).length := by
    rw [List.length_zip]
    omega
  have h2 := interp1_knot _ hpzx ik hzxlen
  rw [getD_zip hi (by omega)] at h2
  dsimp only at h2
  exact h2

/-- Claim C9: resampling a Distribution on a regular rectangular grid
onto its own grid at its own resolution (scale = 1) returns a new
distribution whose axes, data and resolution all equal the originals
exactly (the embedding is in exact rational arithmetic, so "up to
floating-point tolerance" becomes equality); the source is untouched
since scale_grid is a pure function of its input. -/
theorem C9_thm (x0 hx y0 hy : ℚ) (nx ny : ℕ) (data : List (List ℚ)) (res : ℚ)
    (hhx : 0 < hx) (hhy : 0 < hy)
    (hdl : data.length = ny)
    (hrl : ∀ row ∈ data, row.length = nx) :
    scale_grid ⟨apList x0 hx nx, apList y0 hy ny, data, res⟩ =
      ⟨apList x0 hx nx, apList y0 hy ny, data, res⟩ := by
  unfold scale_grid
  have hlx : linspace ((apList x0 hx nx).getD 0 0)
      ((apList x0 hx nx).getD ((apList x0 hx nx).length - 1) 0)
      (apList x0 hx nx).length = apList x0 hx nx := by
    rw [apList_length]
    exact linspace_apList x0 hx nx
  have hly : linspace ((apList y0 hy ny).getD 0 0)
      ((apList y0 hy ny).getD ((apList y0 hy ny).length - 1) 0)
      (apList y0 hy ny).length = apList y0 hy ny := by
    rw [apList_length]
    exact linspace_apList y0 hy ny
  rw [hlx, hly]
  have hdata : (apList y0 hy ny).map (fun yq => (apList x0 hx nx).map
      (fun xq => interp2 (apList x0 hx nx) (apList y0 hy ny) data xq yq)) = data := by
    refine List.ext_getElem (by rw [List.length_map, apList_length, hdl]) ?_
    intro j h1 h2
    rw [List.getElem_map]
    have hjny : j < ny := by
      rw [List.length_map, apList_length] at h1
      exact h1
    refine List.ext_getElem
      (by rw [List.length_map, apList_length, (hrl _ (List.getElem_mem h2)).symm]) ?_
    intro i h3 h4
    rw [List.getElem_map]
    have hinx : i < nx := by
      rw [List.length_map, apList_length] at h3
      exact h3
    have hknot := interp2_knot (apList x0 hx nx) (apList y0 hy ny) data
      (apList_pairwise x0 hx nx hhx) (apList_pairwise y0 hy ny hhy)
      (by rw [apList_length]; exact hdl)
      (by intro row hrow; rw [apList_length]; exact hrl row hrow)
      j i (by rw [apList_length]; exact hjny) (by rw [apList_length]; exact hinx)
    rw [List.getD_eq_getElem _ _ (by rw [apList_length]; exact hinx),
      List.getD_eq_getElem _ _ (by rw [apList_length]; exact hjny),
      List.getD_eq_getElem _ _ h2] at hknot
    rw [List.getD_eq_getElem _ _ h4] at hknot
    exact hknot
  rw [hdata]

/-- Claim C9 witness: the identity on a concrete 2x2 unit grid. -/
theorem C9_witness :
    scale_grid ⟨apList 0 1 2, apList 0 1 2, [[1, 2], [3, 4]], 1⟩ =
      ⟨apList 0 1 2, apList 0 1 2, [[1, 2], [3, 4]], 1⟩ :=
  C9_thm 0 1 0 1 2 2 [[1, 2], [3, 4]] 1 (by norm_num) (by norm_num)
    (by norm_num) (by
      intro row hrow
      rcases List.mem_cons.mp hrow with rfl | hrow2
      · rfl
      · rcases List.mem_cons.mp hrow2 with rfl | hrow3
        · rfl
        · exact absurd hrow3 (by simp))

end Flashgamma
